import Mathlib

/-!
Verification of the reno history scanner (`reno/scanner.py`).

This file gives a shallow embedding, in Lean 4, of the pure algorithmic core
of the scanner:

* `get_unique_id` / `note_file` — note-filename identifier extraction
  (`_get_unique_id`, `_note_file`);
* `aggregate_changes` — per-commit change aggregation and rename inference
  (`_aggregate_changes`);
* `load_tags` / `get_tags_on_commit` — tag index construction
  (`RenoRepo._load_tags`, `RenoRepo.get_tags_on_commit`);
* `get_branch_base` — branch divergence point lookup
  (`Scanner._get_branch_base`);
* `get_current_version` — git-describe-like current version
  (`Scanner._get_current_version`);
* `topo_traversal` — the merge-aware topological linearizer
  (`Scanner._topo_traversal`);
* `scan_entries` / `invert_earliest` / `collapse_pre_releases` / `trim_output`
  — the version-assignment state machine of `Scanner.get_notes_by_version`.

Python `dict` / `collections.OrderedDict` values are embedded as association
lists with in-place update (assigning to an existing key keeps its position;
a new key is appended), `set` values as lists queried by membership, and the
stable Python `list.sort` as a stable insertion sort.  Exceptions are embedded
with `Except String`.  Machine-independent data (paths, tag names, SHAs) are
plain `String`s; timestamps are `Int`.
-/

namespace Reno

/-- Python dict/OrderedDict lookup on an association list: the first binding
of the key wins (keys are kept unique by `dict_insert`). -/
def alookup {β : Type} (m : List (String × β)) (k : String) : Option β :=
  match m with
  | [] => none
  | (k2, v) :: rest => if k2 = k then some v else alookup rest k

/-- Python dict/OrderedDict assignment `m[k] = v`: updating an existing key
keeps its position in the insertion order, a new key is appended at the end. -/
def dict_insert {β : Type} (m : List (String × β)) (k : String) (v : β) :
    List (String × β) :=
  match m with
  | [] => [(k, v)]
  | (k2, v2) :: rest =>
      if k2 = k then (k2, v) :: rest else (k2, v2) :: dict_insert rest k v

/-- Python `dict.setdefault(k, []).append(x)`: append `x` to the list stored
at `k`, creating the binding (at the end) if the key is absent. -/
def dict_append {β : Type} (m : List (String × List β)) (k : String) (x : β) :
    List (String × List β) :=
  match m with
  | [] => [(k, [x])]
  | (k2, v2) :: rest =>
      if k2 = k then (k2, v2 ++ [x]) :: rest else (k2, v2) :: dict_append rest k x

/-- Stable insertion of `x` into a sorted list: `x` passes every element
strictly below it and stops in front of the first element not below it, so
it lands before any element comparing equal.  Since `stable_sort` inserts
earlier input elements into the sorted later ones, equal-key elements keep
their input order, reproducing Python's stable `list.sort`. -/
def stable_insert {α : Type} (lt : α → α → Bool) (x : α) : List α → List α
  | [] => [x]
  | y :: ys => if lt y x then y :: stable_insert lt x ys else x :: y :: ys

/-- Stable sort by the strict order `lt`; the embedding of Python's stable
`list.sort(key=...)` (two implementations of a stable sort by the same total
preorder produce the same list). -/
def stable_sort {α : Type} (lt : α → α → Bool) : List α → List α
  | [] => []
  | x :: xs => stable_insert lt x (stable_sort lt xs)

/-- List of characters of the digits `0`-`9` and lowercase `a`-`f`. -/
def lower_hex_digits : List Char :=
  ['f', 'e', 'd', 'c', 'b', 'a', '9', '8', '7', '6', '5', '4', '3', '2', '1', '0']

/-- Python `os.path.basename` restricted to `/`-separated paths: the part of
the path after the last `/` (empty when the path ends with `/`). -/
def path_basename (l : List Char) : List Char :=
  (l.reverse.takeWhile (fun c => c ≠ '/')).reverse

/-- The root part of CPython's `os.path.splitext` on a basename: the
extension is split off at the last dot, provided some character strictly
before that dot (within the basename) is not itself a dot — so purely
leading dots never start an extension (`splitext(".yaml") = (".yaml", "")`). -/
def splitext_root (base : List Char) : List Char :=
  let r := base.reverse
  let pre := r.takeWhile (fun c => c ≠ '.')
  if pre.length = r.length then
    base
  else
    let rest := r.drop (pre.length + 1)
    if rest.any (fun c => c ≠ '.') then rest.reverse else base

/-- Embedding of `scanner._get_unique_id`: take the basename of the filename,
strip the extension, take the last 16 characters of the stem (`root[-16:]`);
if a `-` occurs among them, assume the legacy id-at-the-front convention and
take the first 16 characters of the stem instead (`root[:16]`). -/
def get_unique_id (filename : String) : String :=
  let base := path_basename filename.toList
  let root := splitext_root base
  let uniqueid := root.drop (root.length - 16)
  let uniqueid := if uniqueid.contains '-' then root.take 16 else uniqueid
  String.mk uniqueid

/-- Lexicographic comparison of character lists by code point; the embedding
of Python string comparison (`sorted`, tuple ordering). -/
def chars_lt : List Char → List Char → Bool
  | [], [] => false
  | [], _ :: _ => true
  | _ :: _, [] => false
  | a :: as, b :: bs => if a < b then true else if b < a then false else chars_lt as bs

/-- Python `<` on strings. -/
def str_lt (a b : String) : Bool :=
  chars_lt a.data b.data

/-- Python `<` on `(string, string)` pairs (tuple comparison). -/
def pair_lt (x y : String × String) : Bool :=
  str_lt x.1 y.1 || (x.1 == y.1 && str_lt x.2 y.2)

/-- Embedding of `scanner._note_file`: a name of interest is non-empty and
matches the glob `*.yaml` (on POSIX `fnmatch`, exactly the names ending in
`.yaml`, i.e. whose last five characters are `.yaml`); anything else is
logged and ignored. -/
def note_file (name : Option String) : Bool :=
  match name with
  | none => false
  | some s =>
      if s = "" then false
      else s.data.drop (s.data.length - 5) == ['.', 'y', 'a', 'm', 'l']

/-- The string is exactly 16 lowercase hexadecimal digits (the note-id token
of the filename conventions in the spec). -/
def is_hex16 (h : String) : Prop :=
  h.data.length = 16 ∧ ∀ c ∈ h.data, c ∈ lower_hex_digits

instance (h : String) : Decidable (is_hex16 h) := by
  unfold is_hex16; infer_instance

lemma takeWhile_append_all {p : Char → Bool} {l1 : List Char} (l2 : List Char)
    (h : ∀ c ∈ l1, p c = true) :
    (l1 ++ l2).takeWhile p = l1 ++ l2.takeWhile p := by
  induction l1 with
  | nil => simp
  | cons a l ih =>
      rw [List.cons_append, List.takeWhile_cons_of_pos (h a (by simp)),
        ih (fun c hc => h c (by simp [hc]))]
      rfl

/-- Zeta-expanded form of `splitext_root` for rewriting. -/
lemma splitext_root_eq (base : List Char) :
    splitext_root base =
      if (base.reverse.takeWhile (fun c => c ≠ '.')).length = base.reverse.length
      then base
      else if (base.reverse.drop
          ((base.reverse.takeWhile (fun c => c ≠ '.')).length + 1)).any
            (fun c => c ≠ '.')
        then (base.reverse.drop
          ((base.reverse.takeWhile (fun c => c ≠ '.')).length + 1)).reverse
        else base := rfl

/-- Zeta-expanded form of `get_unique_id` for rewriting. -/
lemma get_unique_id_eq (filename : String) :
    get_unique_id filename =
      String.mk
        (if ((splitext_root (path_basename filename.toList)).drop
              ((splitext_root (path_basename filename.toList)).length - 16)).contains
              '-'
         then (splitext_root (path_basename filename.toList)).take 16
         else (splitext_root (path_basename filename.toList)).drop
              ((splitext_root (path_basename filename.toList)).length - 16)) := rfl

lemma path_basename_eq_self {l : List Char} (h : '/' ∉ l) : path_basename l = l := by
  unfold path_basename
  rw [List.takeWhile_eq_self_iff.mpr, List.reverse_reverse]
  intro c hc
  have : c ∈ l := List.mem_reverse.mp hc
  simp only [ne_eq, decide_eq_true_eq]
  intro hceq
  exact h (hceq ▸ this)

lemma splitext_root_ext {x e : List Char} (he : ∀ c ∈ e, c ≠ '.')
    (hx : ∃ c ∈ x, c ≠ '.') :
    splitext_root (x ++ '.' :: e) = x := by
  have hrev : (x ++ '.' :: e).reverse = (e.reverse ++ ['.']) ++ x.reverse := by
    simp
  have htw : ((e.reverse ++ ['.']) ++ x.reverse).takeWhile (fun c => c ≠ '.') =
      e.reverse := by
    rw [List.append_assoc, takeWhile_append_all _
      (fun c hc => by simpa using he c (List.mem_reverse.mp hc))]
    simp [List.takeWhile_cons]
  rw [splitext_root_eq, hrev, htw]
  have hlen : e.reverse.length ≠ ((e.reverse ++ ['.']) ++ x.reverse).length := by
    simp
  rw [if_neg hlen]
  have hdrop : ((e.reverse ++ ['.']) ++ x.reverse).drop (e.reverse.length + 1) =
      x.reverse := by
    have h2 : e.reverse.length + 1 = (e.reverse ++ ['.']).length := by simp
    rw [h2, List.drop_left]
  rw [hdrop]
  have hany : x.reverse.any (fun c => c ≠ '.') = true := by
    obtain ⟨c, hc, hne⟩ := hx
    exact List.any_eq_true.mpr ⟨c, List.mem_reverse.mpr hc, by simpa using hne⟩
  rw [if_pos hany, List.reverse_reverse]

lemma lower_hex_no_special {c : Char} (h : c ∈ lower_hex_digits) :
    c ≠ '-' ∧ c ≠ '.' ∧ c ≠ '/' := by
  fin_cases h <;> refine ⟨by decide, by decide, by decide⟩

/-- How `get_unique_id` behaves on a filename whose basename splits as
`x ++ ".yaml"` with `x` containing some non-dot character: it operates on the
stem `x` exactly as `root` in the source. -/
lemma get_unique_id_stem {x : List Char} (hsep : '/' ∉ x)
    (hx : ∃ c ∈ x, c ≠ '.') :
    get_unique_id (String.mk (x ++ ('.' :: ['y', 'a', 'm', 'l']))) =
      String.mk (if (x.drop (x.length - 16)).contains '-'
                 then x.take 16 else x.drop (x.length - 16)) := by
  have hbase : path_basename (String.mk (x ++ ('.' :: ['y', 'a', 'm', 'l']))).toList
      = x ++ ('.' :: ['y', 'a', 'm', 'l']) := by
    apply path_basename_eq_self
    intro hmem
    rcases List.mem_append.mp hmem with h1 | h2
    · exact hsep h1
    · exact absurd h2 (by decide)
  rw [get_unique_id_eq, hbase, splitext_root_ext (by decide) hx]

end Reno

namespace Reno

/-- Modelled from the spec: the modern note-filename convention
`<slug>-<16 lowercase hex digits>.yaml` (spec section "Note filename
convention"). -/
def modern_note_filename (slug hexid : String) : String :=
  slug ++ "-" ++ hexid ++ ".yaml"

/-- Modelled from the spec: the legacy note-filename convention
`<16 lowercase hex digits>-<slug>.yaml` (spec section "Note filename
convention"). -/
def legacy_note_filename (hexid slug : String) : String :=
  hexid ++ "-" ++ slug ++ ".yaml"

lemma modern_data (slug hexid : String) :
    (modern_note_filename slug hexid).data =
      (slug.data ++ '-' :: hexid.data) ++ ('.' :: ['y', 'a', 'm', 'l']) := by
  unfold modern_note_filename
  rw [String.data_append, String.data_append, String.data_append]
  simp

lemma legacy_data (hexid slug : String) :
    (legacy_note_filename hexid slug).data =
      (hexid.data ++ '-' :: slug.data) ++ ('.' :: ['y', 'a', 'm', 'l']) := by
  unfold legacy_note_filename
  rw [String.data_append, String.data_append, String.data_append]
  simp

/-- C8, corrected: the claim is false as stated for the legacy convention.
The filename `0123456789abcdef-zzzzzzzzzzzzzzzz.yaml` is of the legacy form
`<16 lowercase hex digits>-<slug>.yaml` (and not of the modern form, since
its 16-character stem suffix `zzzzzzzzzzzzzzzz` is not hexadecimal), yet
`_get_unique_id` extracts the slug suffix, not the 16-hex-digit prefix:
because the slug is 16 characters long and dash-free, no separator falls in
the last-16-character window that triggers the legacy rule. -/
theorem c8_counterexample :
    "0123456789abcdef-zzzzzzzzzzzzzzzz.yaml" =
        legacy_note_filename "0123456789abcdef" "zzzzzzzzzzzzzzzz" ∧
    is_hex16 "0123456789abcdef" ∧
    (∃ c ∈ ("zzzzzzzzzzzzzzzz" : String).data, c ∉ lower_hex_digits) ∧
    get_unique_id "0123456789abcdef-zzzzzzzzzzzzzzzz.yaml" = "zzzzzzzzzzzzzzzz" ∧
    get_unique_id "0123456789abcdef-zzzzzzzzzzzzzzzz.yaml" ≠ "0123456789abcdef" := by
  refine ⟨rfl, by decide, ⟨'z', by decide, by decide⟩, rfl, by decide⟩

/-- C8, amended: (1) for every modern-convention filename
`<slug>-<16 lowercase hex digits>.yaml` (slug without `/`) the extracted
identifier is the 16-hex-digit suffix; (2) for every legacy-convention
filename `<16 lowercase hex digits>-<slug>.yaml` whose slug is at most 15
characters long (so that the `-` separator falls inside the last-16-character
window of the stem), the extracted identifier is the 16-hex-digit prefix;
(3) for a legacy-convention filename whose slug is 16 or more characters long
with no `-` among its last 16 characters, the suffix rule stands and the
extracted identifier is the last 16 characters of the slug. -/
theorem c8_unique_id_conventions (slug hexid : String)
    (hslug : '/' ∉ slug.data) (hhex : is_hex16 hexid) :
    get_unique_id (modern_note_filename slug hexid) = hexid ∧
    (slug.data.length ≤ 15 →
      get_unique_id (legacy_note_filename hexid slug) = hexid) ∧
    (16 ≤ slug.data.length → '-' ∉ slug.data.drop (slug.data.length - 16) →
      get_unique_id (legacy_note_filename hexid slug) =
        String.mk (slug.data.drop (slug.data.length - 16))) := by
  obtain ⟨hlen, hdig⟩ := hhex
  have hhexchar : ∀ c ∈ hexid.data, c ≠ '-' ∧ c ≠ '.' ∧ c ≠ '/' :=
    fun c hc => lower_hex_no_special (hdig c hc)
  have hsepm : '/' ∉ slug.data ++ '-' :: hexid.data := by
    intro hmem
    rcases List.mem_append.mp hmem with h1 | h2
    · exact hslug h1
    · rcases List.mem_cons.mp h2 with h3 | h3
      · exact absurd h3 (by decide)
      · exact (hhexchar _ h3).2.2 rfl
  have hsepl : '/' ∉ hexid.data ++ '-' :: slug.data := by
    intro hmem
    rcases List.mem_append.mp hmem with h1 | h2
    · exact (hhexchar _ h1).2.2 rfl
    · rcases List.mem_cons.mp h2 with h3 | h3
      · exact absurd h3 (by decide)
      · exact hslug h3
  have hxm : ∃ c ∈ slug.data ++ '-' :: hexid.data, c ≠ '.' :=
    ⟨'-', by simp, by decide⟩
  have hxl : ∃ c ∈ hexid.data ++ '-' :: slug.data, c ≠ '.' :=
    ⟨'-', by simp, by decide⟩
  have h1m : get_unique_id (modern_note_filename slug hexid) =
      get_unique_id (String.mk ((slug.data ++ '-' :: hexid.data) ++
        ('.' :: ['y', 'a', 'm', 'l']))) :=
    congrArg get_unique_id (String.ext (modern_data slug hexid))
  have h1l : get_unique_id (legacy_note_filename hexid slug) =
      get_unique_id (String.mk ((hexid.data ++ '-' :: slug.data) ++
        ('.' :: ['y', 'a', 'm', 'l']))) :=
    congrArg get_unique_id (String.ext (legacy_data hexid slug))
  refine ⟨?_, ?_, ?_⟩
  · -- modern convention
    rw [h1m, get_unique_id_stem hsepm hxm]
    have hstem : (slug.data ++ '-' :: hexid.data).drop
        ((slug.data ++ '-' :: hexid.data).length - 16) = hexid.data := by
      have harr : (slug.data ++ '-' :: hexid.data).length - 16 =
          (slug.data ++ ['-']).length := by
        simp only [List.length_append, List.length_cons, List.length_nil, hlen]
        omega
      rw [harr]
      have h2 : slug.data ++ '-' :: hexid.data =
          (slug.data ++ ['-']) ++ hexid.data := by simp
      rw [h2, List.drop_left]
    rw [hstem]
    have hnotc : hexid.data.contains '-' = false := by
      have hm : '-' ∉ hexid.data := fun hmem => (hhexchar '-' hmem).1 rfl
      simp [List.contains]
      exact hm
    rw [hnotc, if_neg Bool.false_ne_true]
  · -- legacy convention, short slug
    intro hshort
    rw [h1l, get_unique_id_stem hsepl hxl]
    have harr : (hexid.data ++ '-' :: slug.data).length - 16 =
        slug.data.length + 1 := by
      simp only [List.length_append, List.length_cons, hlen]
      omega
    rw [harr]
    have hdash : '-' ∈ (hexid.data ++ '-' :: slug.data).drop
        (slug.data.length + 1) := by
      rw [List.drop_append_of_le_length (by omega)]
      simp
    have hcont : ((hexid.data ++ '-' :: slug.data).drop
        (slug.data.length + 1)).contains '-' = true := by
      simp [List.contains]
      exact hdash
    rw [hcont, if_pos rfl]
    have htake : (hexid.data ++ '-' :: slug.data).take 16 = hexid.data := by
      have h16 : (16 : Nat) = hexid.data.length := hlen.symm
      rw [h16, List.take_left]
    rw [htake]
  · -- legacy convention, long dash-free slug: the suffix rule stands
    intro hlong hnodash
    rw [h1l, get_unique_id_stem hsepl hxl]
    have harr : (hexid.data ++ '-' :: slug.data).length - 16 =
        slug.data.length + 1 := by
      simp only [List.length_append, List.length_cons, hlen]
      omega
    rw [harr]
    have hdrop : (hexid.data ++ '-' :: slug.data).drop (slug.data.length + 1) =
        slug.data.drop (slug.data.length - 16) := by
      have hsplit : hexid.data ++ '-' :: slug.data =
          (hexid.data ++ ['-']) ++ slug.data := by simp
      rw [hsplit, List.drop_append_eq_append_drop]
      have h17 : (hexid.data ++ ['-']).length = 17 := by
        simp only [List.length_append, List.length_cons, List.length_nil, hlen]
      have hd1 : (hexid.data ++ ['-']).drop (slug.data.length + 1) = [] := by
        apply List.drop_eq_nil_of_le
        rw [h17]
        omega
      rw [hd1, h17]
      simp only [List.nil_append]
      congr 1
    rw [hdrop]
    have hcont : (slug.data.drop (slug.data.length - 16)).contains '-' = false := by
      simp [List.contains]
      exact hnodash
    rw [hcont, if_neg Bool.false_ne_true]

/-- Witness for `c8_unique_id_conventions` at the concrete slug `fix-bug`
and identifier `0123456789abcdef`. -/
theorem c8_witness :
    get_unique_id (modern_note_filename "fix-bug" "0123456789abcdef") =
      "0123456789abcdef" ∧
    get_unique_id (legacy_note_filename "0123456789abcdef" "fix-bug") =
      "0123456789abcdef" := by
  have h := c8_unique_id_conventions "fix-bug" "0123456789abcdef"
    (by decide) (by decide)
  exact ⟨h.1, h.2.1 (by decide)⟩

end Reno

namespace Reno

/-! ## Change aggregation (`_aggregate_changes`) -/

/-- The dulwich change-type constant `diff_tree.CHANGE_ADD`. -/
def CHANGE_ADD : String := "add"

/-- The dulwich change-type constant `diff_tree.CHANGE_DELETE`. -/
def CHANGE_DELETE : String := "delete"

/-- The dulwich change-type constant `diff_tree.CHANGE_MODIFY`. -/
def CHANGE_MODIFY : String := "modify"

/-- The dulwich change-type constant `diff_tree.CHANGE_RENAME`. -/
def CHANGE_RENAME : String := "rename"

/-- A dulwich `TreeChange`: a change type plus the old and new entry paths
(`None` when the corresponding side does not exist, e.g. the old path of an
add). -/
structure TreeChange where
  ctype : String
  oldPath : Option String
  newPath : Option String
deriving DecidableEq, Repr

/-- A raw entry of a `by_uid` bucket in `_aggregate_changes`:
`(c.type, path, sha)` for adds and modifies, `(c.type, path)` for deletes. -/
inductive RawEntry
  | add (path : String) (sha : String)
  | delete (path : String)
  | modify (path : String) (sha : String)
deriving DecidableEq, Repr

/-- First component (`c[0]`, the change type) of a `by_uid` bucket entry. -/
def RawEntry.ctype : RawEntry → String
  | .add _ _ => CHANGE_ADD
  | .delete _ => CHANGE_DELETE
  | .modify _ _ => CHANGE_MODIFY

/-- Second component (`c[1]`, the path) of a `by_uid` bucket entry. -/
def RawEntry.path : RawEntry → String
  | .add p _ => p
  | .delete p => p
  | .modify p _ => p

/-- A result tuple of `_aggregate_changes`: `(uid, type, paths..., sha)`. -/
inductive ChangeRecord
  | add (uid path sha : String)
  | delete (uid path : String)
  | modify (uid path sha : String)
  | rename (uid oldPath newPath sha : String)
deriving DecidableEq, Repr

/-- Python set equality of two lists of strings viewed as sets. -/
def set_eq (l1 l2 : List String) : Bool :=
  l1.all (fun x => l2.contains x) && l2.all (fun x => l1.contains x)

/-- One step of the `by_uid` grouping loop of `_aggregate_changes`: dispatch
on the change type, drop non-note files, group note files by unique id,
and raise `ValueError` on an unhandled change type. -/
def by_uid_step (sha : String) (by_uid : List (String × List RawEntry))
    (c : TreeChange) : Except String (List (String × List RawEntry)) :=
  if c.ctype = CHANGE_ADD then
    if note_file c.newPath then
      let path := c.newPath.getD ""
      .ok (dict_append by_uid (get_unique_id path) (.add path sha))
    else
      .ok by_uid
  else if c.ctype = CHANGE_DELETE then
    if note_file c.oldPath then
      let path := c.oldPath.getD ""
      .ok (dict_append by_uid (get_unique_id path) (.delete path))
    else
      .ok by_uid
  else if c.ctype = CHANGE_MODIFY then
    if note_file c.newPath then
      let path := c.newPath.getD ""
      .ok (dict_append by_uid (get_unique_id path) (.modify path sha))
    else
      .ok by_uid
  else
    .error ("unhandled change type: " ++ c.ctype)

/-- First add entry of a bucket (`[c for c in changes if c[0] == CHANGE_ADD][0]`). -/
def first_add (group : List RawEntry) : Option (String × String) :=
  group.findSome? fun c =>
    match c with
    | .add p s => some (p, s)
    | _ => none

/-- First delete entry of a bucket
(`[c for c in changes if c[0] == CHANGE_DELETE][0]`). -/
def first_delete (group : List RawEntry) : Option String :=
  group.findSome? fun c =>
    match c with
    | .delete p => some p
    | _ => none

/-- Direct mapping of a single bucket entry to its result tuple
(`results.append((uid,) + changes[0])`). -/
def single_record (uid : String) : RawEntry → ChangeRecord
  | .add p s => .add uid p s
  | .delete p => .delete uid p
  | .modify p s => .modify uid p s

/-- The per-bucket result loop of `_aggregate_changes`: a single change maps
directly; exactly the type set `{add, delete}` (as a Python set comparison)
becomes one rename combining the first delete's path with the first add's
path and sha; a set of only modifies is flattened to one modify per entry
tagged with the commit sha; everything else raises `ValueError`. -/
def group_records (sha uid : String) (group : List RawEntry) :
    Except String (List ChangeRecord) :=
  match group with
  | [c] => .ok [single_record uid c]
  | _ =>
      let types := group.map RawEntry.ctype
      if set_eq types [CHANGE_ADD, CHANGE_DELETE] then
        match first_add group, first_delete group with
        | some (pa, sa), some pd => .ok [.rename uid pd pa sa]
        | _, _ => .error "IndexError: list index out of range"
      else if set_eq types [CHANGE_MODIFY] then
        .ok (group.map fun c => .modify uid c.path sha)
      else
        .error "Unrecognized changes"

/-- Embedding of `scanner._aggregate_changes`.  The input is the sequence of
change entries as delivered by the tree-diff layer: for merge commits an
entry is itself a list of per-parent changes, so the Python code wraps plain
entries into singleton lists and iterates the flattened sequence; the
embedding takes the entries in that list-of-lists form directly.  Buckets
are visited in sorted key order (`sorted(by_uid.items())`, and Python dict
keys are unique, so the sort is by unique id). -/
def aggregate_changes (sha : String) (changes : List (List TreeChange)) :
    Except String (List ChangeRecord) := do
  let by_uid ← (changes.flatMap id).foldlM (by_uid_step sha) []
  let sorted_buckets := stable_sort (fun a b => str_lt a.1 b.1) by_uid
  sorted_buckets.foldlM
    (fun results bucket => do
      let recs ← group_records sha bucket.1 bucket.2
      pure (results ++ recs))
    []

end Reno

namespace Reno

/-- A change type handled by the `by_uid` grouping loop of
`_aggregate_changes` (anything else raises `ValueError`). -/
def recognized_type (c : TreeChange) : Prop :=
  c.ctype = CHANGE_ADD ∨ c.ctype = CHANGE_DELETE ∨ c.ctype = CHANGE_MODIFY

instance (c : TreeChange) : Decidable (recognized_type c) := by
  unfold recognized_type; infer_instance

/-- The path the grouping loop reads from a change: the old path for a
delete, the new path otherwise. -/
def change_path (c : TreeChange) : Option String :=
  if c.ctype = CHANGE_DELETE then c.oldPath else c.newPath

/-- The bucket entry produced for a recognized note-file change. -/
def raw_entry_of (sha : String) (c : TreeChange) : RawEntry :=
  if c.ctype = CHANGE_ADD then .add (c.newPath.getD "") sha
  else if c.ctype = CHANGE_DELETE then .delete (c.oldPath.getD "")
  else .modify (c.newPath.getD "") sha

lemma by_uid_step_recognized (sha : String) (m : List (String × List RawEntry))
    (c : TreeChange) (h : recognized_type c)
    (hn : note_file (change_path c) = true) :
    by_uid_step sha m c =
      .ok (dict_append m (get_unique_id ((change_path c).getD ""))
            (raw_entry_of sha c)) := by
  rcases h with h | h | h <;>
    · simp [by_uid_step, raw_entry_of, change_path, h,
        CHANGE_ADD, CHANGE_DELETE, CHANGE_MODIFY] at hn ⊢
      simp [hn]

lemma by_uid_step_bad (sha : String) (m : List (String × List RawEntry))
    (c : TreeChange) (h : ¬ recognized_type c) :
    by_uid_step sha m c = .error ("unhandled change type: " ++ c.ctype) := by
  unfold recognized_type at h
  push_neg at h
  simp [by_uid_step, h.1, h.2.1, h.2.2]

lemma raw_entry_ctype (sha : String) (c : TreeChange) (h : recognized_type c) :
    (raw_entry_of sha c).ctype = c.ctype := by
  rcases h with h | h | h <;>
    simp [raw_entry_of, RawEntry.ctype, h, CHANGE_ADD, CHANGE_DELETE, CHANGE_MODIFY]

lemma by_uid_step_ignored (sha : String) (m : List (String × List RawEntry))
    (c : TreeChange) (h : recognized_type c)
    (hn : note_file (change_path c) = false) :
    by_uid_step sha m c = .ok m := by
  rcases h with h | h | h <;>
    · simp [by_uid_step, change_path, h,
        CHANGE_ADD, CHANGE_DELETE, CHANGE_MODIFY] at hn ⊢
      simp [hn]

lemma foldlM_by_uid_error (sha : String) (l : List TreeChange)
    (h : ∃ c ∈ l, ¬ recognized_type c) :
    ∀ m, ∃ e, l.foldlM (by_uid_step sha) m = .error e := by
  induction l with
  | nil => simp at h
  | cons c rest ih =>
      intro m
      by_cases hc : recognized_type c
      · have hrest : ∃ c2 ∈ rest, ¬ recognized_type c2 := by
          obtain ⟨c2, hc2, hbad⟩ := h
          rcases List.mem_cons.mp hc2 with rfl | hmem
          · exact absurd hc hbad
          · exact ⟨c2, hmem, hbad⟩
        by_cases hn : note_file (change_path c) = true
        · obtain ⟨e, he⟩ := ih hrest
            (dict_append m (get_unique_id ((change_path c).getD ""))
              (raw_entry_of sha c))
          exact ⟨e, by rw [List.foldlM_cons, by_uid_step_recognized sha m c hc hn]
                       simpa using he⟩
        · obtain ⟨e, he⟩ := ih hrest m
          have hn2 : note_file (change_path c) = false := by
            simpa using hn
          exact ⟨e, by rw [List.foldlM_cons, by_uid_step_ignored sha m c hc hn2]
                       simpa using he⟩
      · exact ⟨"unhandled change type: " ++ c.ctype,
          by rw [List.foldlM_cons, by_uid_step_bad sha m c hc]; rfl⟩

end Reno

namespace Reno

lemma foldlM_by_uid_single (sha u : String) (l : List TreeChange)
    (h : ∀ c ∈ l, recognized_type c ∧ note_file (change_path c) = true ∧
      get_unique_id ((change_path c).getD "") = u) :
    ∀ es, l.foldlM (by_uid_step sha) [(u, es)] =
      .ok [(u, es ++ l.map (raw_entry_of sha))] := by
  induction l with
  | nil => intro es; simp; rfl
  | cons c rest ih =>
      intro es
      obtain ⟨hc, hn, hu⟩ := h c (by simp)
      rw [List.foldlM_cons, by_uid_step_recognized sha _ c hc hn, hu]
      have hstep : dict_append [(u, es)] u (raw_entry_of sha c) =
          [(u, es ++ [raw_entry_of sha c])] := by
        simp [dict_append]
      rw [hstep]
      have h2 := ih (fun c2 hc2 => h c2 (by simp [hc2])) (es ++ [raw_entry_of sha c])
      simpa using h2

/-- C5, confirmed: an aggregation group holding exactly one add and one
delete for one note id is collapsed to a single rename record whose old path
comes from the delete entry and whose new path and commit sha come from the
add entry — in whichever order the two raw changes arrive. -/
theorem c5_rename_collapse (sha pa pd : String)
    (hna : note_file (some pa) = true) (hnd : note_file (some pd) = true)
    (huid : get_unique_id pd = get_unique_id pa) :
    aggregate_changes sha
        [[⟨CHANGE_ADD, none, some pa⟩], [⟨CHANGE_DELETE, some pd, none⟩]] =
      .ok [.rename (get_unique_id pa) pd pa sha] ∧
    aggregate_changes sha
        [[⟨CHANGE_DELETE, some pd, none⟩], [⟨CHANGE_ADD, none, some pa⟩]] =
      .ok [.rename (get_unique_id pa) pd pa sha] := by
  have hrecA : recognized_type ⟨CHANGE_ADD, none, some pa⟩ := Or.inl rfl
  have hrecD : recognized_type ⟨CHANGE_DELETE, some pd, none⟩ := Or.inr (Or.inl rfl)
  constructor
  · have h1 : by_uid_step sha [] ⟨CHANGE_ADD, none, some pa⟩ =
        .ok [(get_unique_id pa, [RawEntry.add pa sha])] := by
      rw [by_uid_step_recognized sha [] _ hrecA hna]
      rfl
    have h2 : by_uid_step sha [(get_unique_id pa, [RawEntry.add pa sha])]
        ⟨CHANGE_DELETE, some pd, none⟩ =
        .ok [(get_unique_id pa, [RawEntry.add pa sha, RawEntry.delete pd])] := by
      rw [by_uid_step_recognized sha _ _ hrecD hnd]
      show Except.ok (dict_append [(get_unique_id pa, [RawEntry.add pa sha])]
        (get_unique_id pd) (RawEntry.delete pd)) = _
      rw [huid]
      simp [dict_append]
    have hfold : (([[(⟨CHANGE_ADD, none, some pa⟩ : TreeChange)],
        [⟨CHANGE_DELETE, some pd, none⟩]].flatMap id)).foldlM (by_uid_step sha) []
        = .ok [(get_unique_id pa, [RawEntry.add pa sha, RawEntry.delete pd])] := by
      show ([⟨CHANGE_ADD, none, some pa⟩,
        ⟨CHANGE_DELETE, some pd, none⟩] : List TreeChange).foldlM (by_uid_step sha) [] = _
      rw [List.foldlM_cons, h1]
      show ([⟨CHANGE_DELETE, some pd, none⟩] : List TreeChange).foldlM
        (by_uid_step sha) [(get_unique_id pa, [RawEntry.add pa sha])] = _
      rw [List.foldlM_cons, h2]
      rfl
    show (([[(⟨CHANGE_ADD, none, some pa⟩ : TreeChange)],
        [⟨CHANGE_DELETE, some pd, none⟩]].flatMap id)).foldlM (by_uid_step sha) []
        >>= (fun by_uid => (stable_sort (fun a b => str_lt a.1 b.1) by_uid).foldlM
          (fun results bucket => do
            let recs ← group_records sha bucket.1 bucket.2
            pure (results ++ recs)) []) = _
    rw [hfold]
    rfl
  · have h1 : by_uid_step sha [] ⟨CHANGE_DELETE, some pd, none⟩ =
        .ok [(get_unique_id pd, [RawEntry.delete pd])] := by
      rw [by_uid_step_recognized sha [] _ hrecD hnd]
      rfl
    have h2 : by_uid_step sha [(get_unique_id pd, [RawEntry.delete pd])]
        ⟨CHANGE_ADD, none, some pa⟩ =
        .ok [(get_unique_id pd, [RawEntry.delete pd, RawEntry.add pa sha])] := by
      rw [by_uid_step_recognized sha _ _ hrecA hna]
      show Except.ok (dict_append [(get_unique_id pd, [RawEntry.delete pd])]
        (get_unique_id pa) (RawEntry.add pa sha)) = _
      rw [← huid]
      simp [dict_append]
    have hfold : (([[(⟨CHANGE_DELETE, some pd, none⟩ : TreeChange)],
        [⟨CHANGE_ADD, none, some pa⟩]].flatMap id)).foldlM (by_uid_step sha) []
        = .ok [(get_unique_id pd, [RawEntry.delete pd, RawEntry.add pa sha])] := by
      show ([⟨CHANGE_DELETE, some pd, none⟩,
        ⟨CHANGE_ADD, none, some pa⟩] : List TreeChange).foldlM (by_uid_step sha) [] = _
      rw [List.foldlM_cons, h1]
      show ([⟨CHANGE_ADD, none, some pa⟩] : List TreeChange).foldlM
        (by_uid_step sha) [(get_unique_id pd, [RawEntry.delete pd])] = _
      rw [List.foldlM_cons, h2]
      rfl
    show (([[(⟨CHANGE_DELETE, some pd, none⟩ : TreeChange)],
        [⟨CHANGE_ADD, none, some pa⟩]].flatMap id)).foldlM (by_uid_step sha) []
        >>= (fun by_uid => (stable_sort (fun a b => str_lt a.1 b.1) by_uid).foldlM
          (fun results bucket => do
            let recs ← group_records sha bucket.1 bucket.2
            pure (results ++ recs)) []) = _
    rw [hfold, huid]
    rfl

/-- Witness for `c5_rename_collapse` on a concrete commit. -/
theorem c5_witness :
    aggregate_changes "c1"
        [[⟨CHANGE_ADD, none, some "slug-0000000000000001.yaml"⟩],
         [⟨CHANGE_DELETE, some "old-0000000000000001.yaml", none⟩]] =
      .ok [.rename "0000000000000001" "old-0000000000000001.yaml"
            "slug-0000000000000001.yaml" "c1"] :=
  (c5_rename_collapse "c1" "slug-0000000000000001.yaml"
    "old-0000000000000001.yaml" (by decide) (by decide) (by decide)).1

end Reno

namespace Reno

/-- C9, confirmed: `_aggregate_changes` fails fast with an error both
(1) whenever some raw change has a type other than add, delete or modify,
and (2) whenever an aggregation group of two or more raw changes of one note
id has a type set that is neither exactly `{add, delete}` nor exactly
`{modify}` (a single change is mapped directly and is excluded here); no
change records are produced in either case. -/
theorem c9_aggregate_fails_fast :
    (∀ (sha : String) (changes : List (List TreeChange)),
      (∃ c ∈ changes.flatMap id, ¬ recognized_type c) →
      ∃ e, aggregate_changes sha changes = .error e) ∧
    (∀ (sha u : String) (changes : List (List TreeChange)),
      2 ≤ (changes.flatMap id).length →
      (∀ c ∈ changes.flatMap id, recognized_type c ∧
        note_file (change_path c) = true ∧
        get_unique_id ((change_path c).getD "") = u) →
      set_eq ((changes.flatMap id).map TreeChange.ctype)
        [CHANGE_ADD, CHANGE_DELETE] = false →
      set_eq ((changes.flatMap id).map TreeChange.ctype)
        [CHANGE_MODIFY] = false →
      ∃ e, aggregate_changes sha changes = .error e) := by
  constructor
  · intro sha changes hbad
    obtain ⟨e, he⟩ := foldlM_by_uid_error sha (changes.flatMap id) hbad []
    refine ⟨e, ?_⟩
    show (changes.flatMap id).foldlM (by_uid_step sha) []
        >>= (fun by_uid => (stable_sort (fun a b => str_lt a.1 b.1) by_uid).foldlM
          (fun results bucket => do
            let recs ← group_records sha bucket.1 bucket.2
            pure (results ++ recs)) []) = .error e
    rw [he]
    rfl
  · intro sha u changes hlen hgood hne1 hne2
    obtain ⟨c1, c2, rest, hflat⟩ :
        ∃ c1 c2 rest, changes.flatMap id = c1 :: c2 :: rest := by
      match hl : changes.flatMap id with
      | [] => rw [hl] at hlen; simp at hlen
      | [c] => rw [hl] at hlen; simp at hlen
      | c1 :: c2 :: rest => exact ⟨c1, c2, rest, rfl⟩
    rw [hflat] at hgood hne1 hne2
    obtain ⟨hc1, hn1, hu1⟩ := hgood c1 (by simp)
    have hbucket : (c1 :: c2 :: rest).foldlM (by_uid_step sha) [] =
        .ok [(u, (c1 :: c2 :: rest).map (raw_entry_of sha))] := by
      rw [List.foldlM_cons, by_uid_step_recognized sha _ c1 hc1 hn1, hu1]
      have hstep : dict_append ([] : List (String × List RawEntry)) u
          (raw_entry_of sha c1) = [(u, [raw_entry_of sha c1])] := rfl
      rw [hstep]
      have h2 := foldlM_by_uid_single sha u (c2 :: rest)
        (fun c hc => hgood c (by simp [hc])) [raw_entry_of sha c1]
      simpa using h2
    have htypes : ((c1 :: c2 :: rest).map (raw_entry_of sha)).map RawEntry.ctype =
        (c1 :: c2 :: rest).map TreeChange.ctype := by
      rw [List.map_map]
      exact List.map_congr_left
        (fun c hc => raw_entry_ctype sha c (hgood c hc).1)
    have hgr : group_records sha u ((c1 :: c2 :: rest).map (raw_entry_of sha)) =
        .error "Unrecognized changes" := by
      show (if set_eq (((c1 :: c2 :: rest).map (raw_entry_of sha)).map
              RawEntry.ctype) [CHANGE_ADD, CHANGE_DELETE] = true then
            (match first_add ((c1 :: c2 :: rest).map (raw_entry_of sha)),
                first_delete ((c1 :: c2 :: rest).map (raw_entry_of sha)) with
              | some (pa, sa), some pd =>
                  Except.ok [ChangeRecord.rename u pd pa sa]
              | _, _ => Except.error "IndexError: list index out of range")
          else if set_eq (((c1 :: c2 :: rest).map (raw_entry_of sha)).map
              RawEntry.ctype) [CHANGE_MODIFY] = true then
            Except.ok (((c1 :: c2 :: rest).map (raw_entry_of sha)).map
              fun c => ChangeRecord.modify u c.path sha)
          else Except.error "Unrecognized changes") =
          Except.error "Unrecognized changes"
      rw [htypes, hne1, hne2]
      rfl
    refine ⟨"Unrecognized changes", ?_⟩
    show (changes.flatMap id).foldlM (by_uid_step sha) []
        >>= (fun by_uid => (stable_sort (fun a b => str_lt a.1 b.1) by_uid).foldlM
          (fun results bucket => do
            let recs ← group_records sha bucket.1 bucket.2
            pure (results ++ recs)) []) = .error "Unrecognized changes"
    rw [hflat, hbucket]
    show (stable_sort (fun a b => str_lt a.1 b.1)
        [(u, (c1 :: c2 :: rest).map (raw_entry_of sha))]).foldlM
          (fun results bucket => do
            let recs ← group_records sha bucket.1 bucket.2
            pure (results ++ recs)) [] = Except.error "Unrecognized changes"
    have hsort : stable_sort (fun a b => str_lt a.1 b.1)
        [(u, (c1 :: c2 :: rest).map (raw_entry_of sha))] =
        [(u, (c1 :: c2 :: rest).map (raw_entry_of sha))] := rfl
    rw [hsort, List.foldlM_cons]
    show (group_records sha u ((c1 :: c2 :: rest).map (raw_entry_of sha))
        >>= fun recs => pure ([] ++ recs))
        >>= (fun init => List.foldlM _ init []) = Except.error "Unrecognized changes"
    rw [hgr]
    rfl

/-- Witness for `c9_aggregate_fails_fast`: a raw change of the unhandled
type `rename` makes the aggregation fail, and so do two adds sharing the
note id `0000000000000001`. -/
theorem c9_witness :
    (∃ e, aggregate_changes "c1"
        [[⟨CHANGE_RENAME, some "x.yaml", some "y.yaml"⟩]] = .error e) ∧
    (∃ e, aggregate_changes "c1"
        [[⟨CHANGE_ADD, none, some "x-0000000000000001.yaml"⟩,
          ⟨CHANGE_ADD, none, some "y-0000000000000001.yaml"⟩]] = .error e) := by
  constructor
  · exact c9_aggregate_fails_fast.1 "c1"
      [[⟨CHANGE_RENAME, some "x.yaml", some "y.yaml"⟩]]
      ⟨⟨CHANGE_RENAME, some "x.yaml", some "y.yaml"⟩, by decide, by decide⟩
  · exact c9_aggregate_fails_fast.2 "c1" "0000000000000001"
      [[⟨CHANGE_ADD, none, some "x-0000000000000001.yaml"⟩,
        ⟨CHANGE_ADD, none, some "y-0000000000000001.yaml"⟩]]
      (by decide) (by decide) (by decide) (by decide)

end Reno

namespace Reno

/-! ## Generic facts about the stable sort -/

lemma mem_stable_insert {α : Type} (lt : α → α → Bool) (x a : α) (l : List α) :
    a ∈ stable_insert lt x l ↔ a = x ∨ a ∈ l := by
  induction l with
  | nil => simp [stable_insert]
  | cons y ys ih =>
      simp only [stable_insert]
      cases hlt : lt y x
      · simp only [Bool.false_eq_true, if_false, List.mem_cons]
      · simp only [if_true, List.mem_cons, ih]
        tauto

lemma pairwise_stable_insert {α : Type} {le : α → α → Prop} {lt : α → α → Bool}
    (h1 : ∀ a b, lt a b = true → le a b)
    (h2 : ∀ a b, lt a b = false → le b a)
    (htrans : ∀ a b c, le a b → le b c → le a c)
    (x : α) (l : List α) (h : l.Pairwise le) :
    (stable_insert lt x l).Pairwise le := by
  induction l with
  | nil => simp [stable_insert]
  | cons y ys ih =>
      rcases List.pairwise_cons.mp h with ⟨hy, hys⟩
      simp only [stable_insert]
      cases hlt : lt y x
      · simp only [Bool.false_eq_true, if_false]
        refine List.pairwise_cons.mpr ⟨?_, h⟩
        intro b hb
        rcases List.mem_cons.mp hb with hby | hbys
        · rw [hby]
          exact h2 y x hlt
        · exact htrans x y b (h2 y x hlt) (hy b hbys)
      · simp only [if_true]
        refine List.pairwise_cons.mpr ⟨?_, ih hys⟩
        intro b hb
        rcases (mem_stable_insert lt x b ys).mp hb with hbx | hbys
        · rw [hbx]
          exact h1 y x hlt
        · exact hy b hbys

lemma pairwise_stable_sort {α : Type} {le : α → α → Prop} {lt : α → α → Bool}
    (h1 : ∀ a b, lt a b = true → le a b)
    (h2 : ∀ a b, lt a b = false → le b a)
    (htrans : ∀ a b c, le a b → le b c → le a c)
    (l : List α) :
    (stable_sort lt l).Pairwise le := by
  induction l with
  | nil => simp [stable_sort]
  | cons x xs ih => exact pairwise_stable_insert h1 h2 htrans x _ ih

lemma mem_stable_sort {α : Type} (lt : α → α → Bool) (a : α) (l : List α) :
    a ∈ stable_sort lt l ↔ a ∈ l := by
  induction l with
  | nil => simp [stable_sort]
  | cons x xs ih =>
      simp only [stable_sort, mem_stable_insert, List.mem_cons, ih]

/-! ## Repository accessor (`RenoRepo`) -/

/-- A git object as `_load_tags` and the walkers see it: an annotated or
signed tag object carrying its target sha and its own timestamp
(`tag_obj.object[1]`, `tag_obj.tag_time`), a commit carrying its parent list
and committer timestamp, or some other object kind. -/
inductive GitObject
  | tag (objectSha : String) (tagTime : Int)
  | commit (parents : List String) (commitTime : Int)
  | blob
deriving DecidableEq, Repr

/-- The read-only repository state: the ref store (`get_refs()`, in
iteration order) and the object store keyed by sha. -/
structure GitRepo where
  refs : List (String × String)
  objects : List (String × GitObject)
deriving Repr

/-- Object lookup `self[sha]`. -/
def GitRepo.lookup (repo : GitRepo) (sha : String) : Option GitObject :=
  alookup repo.objects sha

/-- The `_all_tags` dict of `RenoRepo._load_tags`: the refs whose name starts
with `refs/tags/`, keyed by the part after the first `/tags/` (for such refs,
exactly the name with the 10-character prefix `refs/tags/` removed). -/
def all_tags (repo : GitRepo) : List (String × String) :=
  (repo.refs.filter
      (fun kv => kv.1.data.take 10 == ("refs/tags/" : String).data)).foldl
    (fun m kv => dict_insert m (String.mk (kv.1.data.drop 10)) kv.2) []

/-- One step of the `_shas_to_tags` construction loop: dereference an
annotated/signed tag object to its target sha using the tag object's own
timestamp (`tag_obj.tag_time`); a ref pointing directly at a commit keeps
that sha with the commit timestamp; any other object raises `ValueError`
(and a sha absent from the store raises `KeyError`). -/
def load_tags_step (repo : GitRepo)
    (m : List (String × List (String × Int))) (tv : String × String) :
    Except String (List (String × List (String × Int))) :=
  match repo.lookup tv.2 with
  | some (.tag objectSha tagTime) => .ok (dict_append m objectSha (tv.1, tagTime))
  | some (.commit _ commitTime) => .ok (dict_append m tv.2 (tv.1, commitTime))
  | some .blob => .error "Unrecognized tag object"
  | none => .error "KeyError"

/-- Embedding of `RenoRepo._load_tags`: the `_shas_to_tags` mapping from a
commit sha to the `(tag name, date)` pairs targeting it, built in ref order. -/
def load_tags (repo : GitRepo) :
    Except String (List (String × List (String × Int))) :=
  (all_tags repo).foldlM (load_tags_step repo) []

/-- Embedding of `RenoRepo.get_tags_on_commit`: the tag names on a commit,
stably sorted by the date recorded in `_shas_to_tags`, oldest first. -/
def get_tags_on_commit (repo : GitRepo) (sha : String) :
    Except String (List String) := do
  let m ← load_tags repo
  let tags_and_dates := (alookup m sha).getD []
  pure ((stable_sort (fun a b => decide (a.2 < b.2)) tags_and_dates).map
    (fun td => td.1))

/-- Modelled from the spec: the tag index the specification describes, in
which an annotated/signed tag is dereferenced to its target commit and
ordered by that commit's original commit timestamp — not by the tag object's
own timestamp (spec section 4.1).  Only the date of the annotated-tag case
differs from `load_tags`. -/
def load_tags_spec (repo : GitRepo) :
    Except String (List (String × List (String × Int))) :=
  (all_tags repo).foldlM
    (fun m tv =>
      match repo.lookup tv.2 with
      | some (.tag objectSha _) =>
          match repo.lookup objectSha with
          | some (.commit _ commitTime) =>
              .ok (dict_append m objectSha (tv.1, commitTime))
          | _ => .error "target is not a commit"
      | some (.commit _ commitTime) => .ok (dict_append m tv.2 (tv.1, commitTime))
      | some .blob => .error "Unrecognized tag object"
      | none => .error "KeyError") []

/-- Modelled from the spec: `tagsOnCommit` as the specification words it,
over `load_tags_spec`. -/
def get_tags_on_commit_spec (repo : GitRepo) (sha : String) :
    Except String (List String) := do
  let m ← load_tags_spec repo
  let tags_and_dates := (alookup m sha).getD []
  pure ((stable_sort (fun a b => decide (a.2 < b.2)) tags_and_dates).map
    (fun td => td.1))

/-- A two-tag repository telling the two timestamp policies apart: commit
`c` (commit time 10) is targeted by the annotated tag `T1` whose tag object
`s1` carries tag time 100, and by the lightweight tag `T2`. -/
def repo_c2 : GitRepo :=
  { refs := [("refs/tags/T1", "s1"), ("refs/tags/T2", "c")],
    objects := [("s1", .tag "c" 100), ("c", .commit [] 10)] }

/-- C2, corrected: the ordering timestamp of an annotated/signed tag is the
tag object's own `tag_time`, not the target commit's commit timestamp.  In
`repo_c2` the code orders `T2` (commit time 10) before `T1` (tag time 100),
while the spec's commit-timestamp policy would keep the insertion order
`T1, T2` (both dated 10); the two disagree. -/
theorem c2_counterexample :
    get_tags_on_commit repo_c2 "c" = .ok ["T2", "T1"] ∧
    get_tags_on_commit_spec repo_c2 "c" = .ok ["T1", "T2"] ∧
    get_tags_on_commit repo_c2 "c" ≠ get_tags_on_commit_spec repo_c2 "c" := by
  refine ⟨rfl, rfl, ?_⟩
  intro h
  rw [show get_tags_on_commit repo_c2 "c" = Except.ok ["T2", "T1"] from rfl,
    show get_tags_on_commit_spec repo_c2 "c" = Except.ok ["T1", "T2"] from rfl] at h
  exact absurd (Except.ok.inj h) (by decide)

end Reno

namespace Reno

lemma except_bind_ok {α β : Type} {f : Except String α} {g : α → Except String β}
    {v : β} (h : (f >>= g) = .ok v) : ∃ w, f = .ok w ∧ g w = .ok v := by
  cases f with
  | error e => simp [Bind.bind, Except.bind] at h
  | ok w => exact ⟨w, rfl, by simpa [Bind.bind, Except.bind] using h⟩

lemma alookup_mem {β : Type} {m : List (String × β)} {k : String} {v : β}
    (h : alookup m k = some v) : (k, v) ∈ m := by
  induction m with
  | nil => simp [alookup] at h
  | cons kv rest ih =>
      obtain ⟨k1, v1⟩ := kv
      by_cases hk : k1 = k
      · simp only [alookup, if_pos hk] at h
        simp [hk, Option.some.inj h]
      · simp only [alookup, if_neg hk] at h
        simp [ih h]

lemma mem_dict_append_self {β : Type} (m : List (String × List β)) (k : String)
    (x : β) : x ∈ (alookup (dict_append m k x) k).getD [] := by
  induction m with
  | nil => simp [dict_append, alookup]
  | cons kv rest ih =>
      obtain ⟨k1, vs⟩ := kv
      by_cases hk : k1 = k
      · simp [dict_append, hk, alookup]
      · simp only [dict_append, if_neg hk, alookup]
        simpa [if_neg hk] using ih

lemma mem_dict_append_mono {β : Type} (m : List (String × List β)) (k q : String)
    (x v : β) (h : v ∈ (alookup m q).getD []) :
    v ∈ (alookup (dict_append m k x) q).getD [] := by
  induction m with
  | nil => simp [alookup] at h
  | cons kv rest ih =>
      obtain ⟨k1, vs⟩ := kv
      by_cases hk : k1 = k
      · by_cases hq : k1 = q
        · simp only [alookup, if_pos hq, Option.getD_some] at h
          simp only [dict_append, if_pos hk, alookup, if_pos hq, Option.getD_some]
          exact List.mem_append_left _ h
        · simp only [alookup, if_neg hq] at h
          simp only [dict_append, if_pos hk, alookup, if_neg hq]
          exact h
      · by_cases hq : k1 = q
        · simp only [alookup, if_pos hq, Option.getD_some] at h
          simp only [dict_append, if_neg hk, alookup, if_pos hq, Option.getD_some]
          exact h
        · simp only [alookup, if_neg hq] at h
          simp only [dict_append, if_neg hk, alookup, if_neg hq]
          exact ih h

lemma load_tags_aux_mono (repo : GitRepo) (entries : List (String × String)) :
    ∀ m0 m, entries.foldlM (load_tags_step repo) m0 = .ok m →
    ∀ q v, v ∈ (alookup m0 q).getD [] → v ∈ (alookup m q).getD [] := by
  induction entries with
  | nil =>
      intro m0 m hfold q v hv
      rw [List.foldlM_nil] at hfold
      cases Except.ok.inj hfold
      exact hv
  | cons e rest ih =>
      intro m0 m hfold q v hv
      rw [List.foldlM_cons] at hfold
      obtain ⟨m1, hstep, hrest⟩ := except_bind_ok hfold
      cases hobj : repo.lookup e.2 with
      | none => simp [load_tags_step, hobj] at hstep
      | some o =>
          cases o with
          | tag objectSha tagTime =>
              simp only [load_tags_step, hobj] at hstep
              cases Except.ok.inj hstep
              exact ih _ m hrest q v
                (mem_dict_append_mono m0 objectSha q (e.1, tagTime) v hv)
          | commit ps γ =>
              simp only [load_tags_step, hobj] at hstep
              cases Except.ok.inj hstep
              exact ih _ m hrest q v
                (mem_dict_append_mono m0 e.2 q (e.1, γ) v hv)
          | blob => simp [load_tags_step, hobj] at hstep

lemma load_tags_aux_mem_tag (repo : GitRepo) (entries : List (String × String))
    (t s c : String) (τ : Int) :
    ∀ m0 m, entries.foldlM (load_tags_step repo) m0 = .ok m →
    (t, s) ∈ entries → repo.lookup s = some (.tag c τ) →
    (t, τ) ∈ (alookup m c).getD [] := by
  induction entries with
  | nil => intro m0 m _ hmem; simp at hmem
  | cons e rest ih =>
      intro m0 m hfold hmem hobj
      rw [List.foldlM_cons] at hfold
      obtain ⟨m1, hstep, hrest⟩ := except_bind_ok hfold
      rcases List.mem_cons.mp hmem with heq | hmem2
      · cases heq
        simp only [load_tags_step, hobj] at hstep
        cases Except.ok.inj hstep
        exact load_tags_aux_mono repo rest _ m hrest c (t, τ)
          (mem_dict_append_self m0 c (t, τ))
      · exact ih _ m hrest hmem2 hobj

lemma load_tags_aux_mem_commit (repo : GitRepo) (entries : List (String × String))
    (t s : String) (ps : List String) (γ : Int) :
    ∀ m0 m, entries.foldlM (load_tags_step repo) m0 = .ok m →
    (t, s) ∈ entries → repo.lookup s = some (.commit ps γ) →
    (t, γ) ∈ (alookup m s).getD [] := by
  induction entries with
  | nil => intro m0 m _ hmem; simp at hmem
  | cons e rest ih =>
      intro m0 m hfold hmem hobj
      rw [List.foldlM_cons] at hfold
      obtain ⟨m1, hstep, hrest⟩ := except_bind_ok hfold
      rcases List.mem_cons.mp hmem with heq | hmem2
      · cases heq
        simp only [load_tags_step, hobj] at hstep
        cases Except.ok.inj hstep
        exact load_tags_aux_mono repo rest _ m hrest s (t, γ)
          (mem_dict_append_self m0 s (t, γ))
      · exact ih _ m hrest hmem2 hobj

/-- C2, amended: the timestamp `_load_tags` records for an annotated or
signed tag is the tag object's own `tag_time` — not the target commit's
commit timestamp, as the spec claims — while a lightweight tag (a tag ref
pointing directly at a commit) is recorded with the commit's timestamp; and
`get_tags_on_commit` returns the tags of a commit stably sorted by these
recorded timestamps, oldest first. -/
theorem c2_tag_order (repo : GitRepo) :
    (∀ t s c τ m, alookup (all_tags repo) t = some s →
      repo.lookup s = some (.tag c τ) → load_tags repo = .ok m →
      (t, τ) ∈ (alookup m c).getD []) ∧
    (∀ t s ps γ m, alookup (all_tags repo) t = some s →
      repo.lookup s = some (.commit ps γ) → load_tags repo = .ok m →
      (t, γ) ∈ (alookup m s).getD []) ∧
    (∀ sha m, load_tags repo = .ok m →
      get_tags_on_commit repo sha =
        .ok ((stable_sort (fun a b => decide (a.2 < b.2))
          ((alookup m sha).getD [])).map (fun td => td.1)) ∧
      (stable_sort (fun a b => decide (a.2 < b.2))
          ((alookup m sha).getD [])).Pairwise
        (fun a b : String × Int => a.2 ≤ b.2)) := by
  refine ⟨?_, ?_, ?_⟩
  · intro t s c τ m hlook hobj hload
    exact load_tags_aux_mem_tag repo (all_tags repo) t s c τ [] m hload
      (alookup_mem hlook) hobj
  · intro t s ps γ m hlook hobj hload
    exact load_tags_aux_mem_commit repo (all_tags repo) t s ps γ [] m hload
      (alookup_mem hlook) hobj
  · intro sha m hload
    constructor
    · show load_tags repo >>= (fun m2 => pure ((stable_sort
        (fun a b => decide (a.2 < b.2)) ((alookup m2 sha).getD [])).map
          (fun td => td.1))) = _
      rw [hload]
      rfl
    · refine pairwise_stable_sort ?_ ?_ ?_ _
      · intro a b hab
        exact le_of_lt (of_decide_eq_true hab)
      · intro a b hab
        exact le_of_not_lt (of_decide_eq_false hab)
      · intro a b c hab hbc
        exact le_trans hab hbc

/-- Witness for `c2_tag_order` on `repo_c2`: the annotated tag `T1` is
recorded with its tag time 100, the lightweight tag `T2` with the commit
time 10, and the resulting tag order on commit `c` is sorted by date. -/
theorem c2_witness :
    ("T1", (100 : Int)) ∈
      (alookup [("c", [("T1", (100 : Int)), ("T2", 10)])] "c").getD [] ∧
    ("T2", (10 : Int)) ∈
      (alookup [("c", [("T1", (100 : Int)), ("T2", 10)])] "c").getD [] ∧
    get_tags_on_commit repo_c2 "c" = .ok ["T2", "T1"] := by
  have h := c2_tag_order repo_c2
  have hload : load_tags repo_c2 = .ok [("c", [("T1", (100 : Int)), ("T2", 10)])] := rfl
  refine ⟨h.1 "T1" "s1" "c" 100 _ rfl rfl hload,
    h.2.1 "T2" "c" [] 10 _ rfl rfl hload, ?_⟩
  have h3 := (h.2.2 "c" _ hload).1
  rw [h3]
  rfl

end Reno

namespace Reno

/-! ## Branch base (`Scanner._get_branch_base`) and current version
(`Scanner._get_current_version`) -/

/-- Embedding of `Scanner._get_branch_base`.  `master_commits` is the set of
shas reachable from the `master` head and `branch_walk` the walker output for
the scanned branch, both delivered by `_get_walker_for_branch`; the first
branch commit that also lies on master is the divergence point, and the
function returns `tags[-1]` of that commit — which raises `IndexError` when
the commit carries no tags — or `None` when the branch never meets master. -/
def get_branch_base (repo : GitRepo) (master_commits : List String)
    (branch_walk : List String) : Except String (Option String) :=
  match branch_walk.find? (fun c => master_commits.contains c) with
  | some c => do
      let tags ← get_tags_on_commit repo c
      match tags.getLast? with
      | some t => pure (some t)
      | none => .error "IndexError: list index out of range"
  | none => pure none

/-- A repository whose only commits are untagged: `b1` on the branch,
`c0` shared with master. -/
def repo_c7 : GitRepo :=
  { refs := [],
    objects := [("c0", .commit [] 5), ("b1", .commit ["c0"] 6)] }

/-- C7, corrected: when the divergence commit carries no tags,
`_get_branch_base` does not return an absent value — `tags[-1]` on the empty
tag list raises `IndexError`.  In `repo_c7` the branch walk `[b1, c0]` meets
the master set `{c0}` at the untagged commit `c0` and the call fails. -/
theorem c7_counterexample :
    get_tags_on_commit repo_c7 "c0" = .ok [] ∧
    get_branch_base repo_c7 ["c0"] ["b1", "c0"] =
      .error "IndexError: list index out of range" := by
  exact ⟨rfl, rfl⟩

/-- C7, amended: scanning the branch walk for the first commit that is also
reachable from master, `_get_branch_base` (1) returns the last tag — in the
accessor's timestamp order — of that divergence commit when it has tags,
(2) raises `IndexError` when the divergence commit carries no tags, and
(3) returns an absent value, without raising, only when no commit of the
branch walk lies on master. -/
theorem c7_branch_base (repo : GitRepo) (master_commits branch_walk : List String) :
    (∀ c tags t, branch_walk.find? (fun c2 => master_commits.contains c2) = some c →
      get_tags_on_commit repo c = .ok tags → tags.getLast? = some t →
      get_branch_base repo master_commits branch_walk = .ok (some t)) ∧
    (∀ c, branch_walk.find? (fun c2 => master_commits.contains c2) = some c →
      get_tags_on_commit repo c = .ok [] →
      get_branch_base repo master_commits branch_walk =
        .error "IndexError: list index out of range") ∧
    (branch_walk.find? (fun c2 => master_commits.contains c2) = none →
      get_branch_base repo master_commits branch_walk = .ok none) := by
  refine ⟨?_, ?_, ?_⟩
  · intro c tags t hfind htags hlast
    unfold get_branch_base
    rw [hfind]
    show get_tags_on_commit repo c >>= _ = _
    rw [htags]
    show (match tags.getLast? with
      | some t2 => pure (some t2)
      | none => Except.error "IndexError: list index out of range") = _
    rw [hlast]
    rfl
  · intro c hfind htags
    unfold get_branch_base
    rw [hfind]
    show get_tags_on_commit repo c >>= _ = _
    rw [htags]
    rfl
  · intro hfind
    unfold get_branch_base
    rw [hfind]
    rfl

/-- Witness for `c7_branch_base`: a tagged divergence commit yields its last
tag; an empty search yields the absent value. -/
theorem c7_witness :
    get_branch_base repo_c2 ["c"] ["c"] = .ok (some "T1") ∧
    get_branch_base repo_c2 ["zz"] ["c"] = .ok none := by
  have h := c7_branch_base repo_c2 ["c"] ["c"]
  have h2 := c7_branch_base repo_c2 ["zz"] ["c"]
  exact ⟨h.1 "c" ["T2", "T1"] "T1" rfl rfl rfl, h2.2.2 rfl⟩

end Reno

namespace Reno

/-- Commit lookup used by the first-parent walk of
`Scanner._get_current_version`. -/
def lookup_commit (repo : GitRepo) (sha : String) : Option (List String × Int) :=
  match repo.lookup sha with
  | some (.commit ps t) => some (ps, t)
  | _ => none

/-- Embedding of the `while commit:` loop of `Scanner._get_current_version`:
at each commit, if it carries tags return the last one — suffixed with
`-<count>` when any commits were stepped over — otherwise follow the first
parent, counting the step; a commit without parents ends the walk with the
fixed label `0.0.0`.  `fuel` bounds the number of iterations so the
recursion is total; the source loop has no such bound because a commit graph
has no first-parent cycles. -/
def get_current_version_loop (repo : GitRepo) :
    Nat → String → Nat → Except String String
  | 0, _, _ => .error "fuel exhausted"
  | fuel + 1, sha, count =>
      match lookup_commit repo sha with
      | none => .error "KeyError"
      | some (parents, _) => do
          let tags ← get_tags_on_commit repo sha
          match tags.getLast? with
          | some t =>
              pure (if count ≠ 0 then t ++ "-" ++ toString count else t)
          | none =>
              match parents with
              | [] => pure "0.0.0"
              | p :: _ => get_current_version_loop repo fuel p (count + 1)

/-- Embedding of `Scanner._get_current_version`, starting from the resolved
branch head with `count = 0`. -/
def get_current_version (repo : GitRepo) (fuel : Nat) (head : String) :
    Except String String :=
  get_current_version_loop repo fuel head 0

/-- The list `cs` is a first-parent chain in `repo`: each commit's first
parent is the next entry, and the final entry is a commit without parents. -/
def first_parent_chain (repo : GitRepo) : List String → Prop
  | [] => True
  | [s] => ∃ t, lookup_commit repo s = some ([], t)
  | s :: s2 :: rest =>
      (∃ ps t, lookup_commit repo s = some (s2 :: ps, t)) ∧
      first_parent_chain repo (s2 :: rest)

lemma get_current_version_loop_chain (repo : GitRepo) (tl : List String) :
    ∀ hd count fuel, first_parent_chain repo (hd :: tl) →
    (∀ s ∈ hd :: tl, get_tags_on_commit repo s = .ok []) →
    tl.length + 1 ≤ fuel →
    get_current_version_loop repo fuel hd count = .ok "0.0.0" := by
  induction tl with
  | nil =>
      intro hd count fuel hchain huntagged hfuel
      obtain ⟨t, hlook⟩ := hchain
      cases fuel with
      | zero => simp at hfuel
      | succ fuel2 =>
          show (match lookup_commit repo hd with
            | none => Except.error "KeyError"
            | some (parents, _) => do
                let tags ← get_tags_on_commit repo hd
                match tags.getLast? with
                | some t2 =>
                    pure (if count ≠ 0 then t2 ++ "-" ++ toString count else t2)
                | none =>
                    match parents with
                    | [] => pure "0.0.0"
                    | p :: _ =>
                        get_current_version_loop repo fuel2 p (count + 1)) =
            Except.ok "0.0.0"
          rw [hlook, huntagged hd (by simp)]
          rfl
  | cons s2 rest2 ih =>
      intro hd count fuel hchain huntagged hfuel
      obtain ⟨⟨ps, t, hlook⟩, hchain2⟩ := hchain
      cases fuel with
      | zero => simp at hfuel
      | succ fuel2 =>
          show (match lookup_commit repo hd with
            | none => Except.error "KeyError"
            | some (parents, _) => do
                let tags ← get_tags_on_commit repo hd
                match tags.getLast? with
                | some t2 =>
                    pure (if count ≠ 0 then t2 ++ "-" ++ toString count else t2)
                | none =>
                    match parents with
                    | [] => pure "0.0.0"
                    | p :: _ =>
                        get_current_version_loop repo fuel2 p (count + 1)) =
            Except.ok "0.0.0"
          rw [hlook, huntagged hd (by simp)]
          refine ih s2 (count + 1) fuel2 hchain2
            (fun s3 hs3 => huntagged s3 (List.mem_cons_of_mem hd hs3)) ?_
          simp only [List.length_cons] at hfuel
          omega

/-- C10, confirmed: when the first-parent walk from the head reaches a
parentless commit without ever meeting a tagged commit, the current-version
computation returns the fixed label `0.0.0` rather than a tag-derived
label. -/
theorem c10_default_version (repo : GitRepo) (hd : String) (tl : List String)
    (hchain : first_parent_chain repo (hd :: tl))
    (huntagged : ∀ s ∈ hd :: tl, get_tags_on_commit repo s = .ok [])
    (fuel : Nat) (hfuel : tl.length + 1 ≤ fuel) :
    get_current_version repo fuel hd = .ok "0.0.0" :=
  get_current_version_loop_chain repo tl hd 0 fuel hchain huntagged hfuel

/-- Witness for `c10_default_version` on `repo_c7`: walking `b1 → c0` with
no tags anywhere returns `0.0.0`. -/
theorem c10_witness : get_current_version repo_c7 2 "b1" = .ok "0.0.0" :=
  c10_default_version repo_c7 "b1" ["c0"]
    ⟨⟨[], 6, rfl⟩, 5, rfl⟩
    (by intro s hs
        simp only [List.mem_cons, List.mem_singleton] at hs
        rcases hs with rfl | rfl | h
        · rfl
        · rfl
        · simp at h)
    2 (by decide)

end Reno

namespace Reno

/-! ## The version-assignment state machine (`Scanner.get_notes_by_version`,
lines 562-788).  The walker, diff and aggregation layers feed the loop one
`ScanEntry` per commit (in `_topo_traversal` order): the commit sha, the
tags on the commit (`get_tags_on_commit`) and the aggregated change records
(`_aggregate_changes`).  The configuration prologue of the method (branch
resolution, `versions_by_date` from `_get_tags_on_branch`, the
`earliest_version` / branch-base determination) is taken as input here. -/

/-- One commit as consumed by the main scan loop. -/
structure ScanEntry where
  sha : String
  tags_on_commit : List String
  changes : List ChangeRecord
deriving Repr

/-- The unique id of a change record (`change[0]`). -/
def ChangeRecord.uid : ChangeRecord → String
  | .add u _ _ => u
  | .delete u _ => u
  | .modify u _ _ => u
  | .rename u _ _ _ => u

/-- The mutable state of the scan loop. -/
structure ScanState where
  versions : List String
  current_version : String
  earliest_seen : List (String × String)
  last_name_by_id : List (String × (String × String))
  uniqueids_deleted : List String
deriving Repr

/-- Python `os.path.join(a, b)` for the two-argument case used by the scan
loop: an absolute `b` replaces `a`; otherwise the parts are joined with a
single `/` unless `a` is empty or already ends with `/`. -/
def path_join (a b : String) : String :=
  if b.data.take 1 = ['/'] then b
  else if a = "" then b
  else if a.data.getLast? = some '/' then a ++ b
  else a ++ "/" ++ b

/-- The per-change-record body of the scan loop (lines 607-714): the
earliest-seen version of the uid is overwritten on every sighting; changes
to a uid already marked deleted are ignored; adds, renames and modifies
record the (joined path, commit sha) pair only on first sighting; a delete
of a uid with no recorded path marks it deleted, while a delete of a uid
with a recorded path (a later re-add exists) is ignored. -/
def process_change (notesdir : String) (st : ScanState) (change : ChangeRecord) :
    ScanState :=
  let uid := change.uid
  let st := { st with
    earliest_seen := dict_insert st.earliest_seen uid st.current_version }
  if st.uniqueids_deleted.contains uid then st
  else
    match change with
    | .add _ path sha =>
        if (alookup st.last_name_by_id uid).isNone then
          { st with last_name_by_id :=
              dict_insert st.last_name_by_id uid (path_join notesdir path, sha) }
        else st
    | .delete _ _ =>
        if (alookup st.last_name_by_id uid).isNone then
          { st with uniqueids_deleted := st.uniqueids_deleted ++ [uid] }
        else st
    | .rename _ _ newPath sha =>
        if (alookup st.last_name_by_id uid).isNone then
          { st with last_name_by_id :=
              dict_insert st.last_name_by_id uid (path_join notesdir newPath, sha) }
        else st
    | .modify _ path sha =>
        if (alookup st.last_name_by_id uid).isNone then
          { st with last_name_by_id :=
              dict_insert st.last_name_by_id uid (path_join notesdir path, sha) }
        else st

/-- The per-commit body of the scan loop (lines 583-718): a tagged commit
updates the current version to its last tag; the current version is recorded
in `versions` on first sighting; the commit's change records are processed in
order; the returned flag says whether the loop breaks after this commit
(`branch_base_tag` is set, non-empty, and among this commit's effective
tags — for an untagged commit the effective tag list is
`[current_version]`). -/
def process_entry (notesdir : String) (branch_base_tag : Option String)
    (st : ScanState) (e : ScanEntry) : ScanState × Bool :=
  let cv := if e.tags_on_commit.isEmpty then st.current_version
            else e.tags_on_commit.getLastD ""
  let tags := if e.tags_on_commit.isEmpty then [st.current_version]
              else e.tags_on_commit
  let versions := if st.versions.contains cv then st.versions
                  else st.versions ++ [cv]
  let st := { st with current_version := cv, versions := versions }
  let st := e.changes.foldl (process_change notesdir) st
  (st, match branch_base_tag with
       | some bbt => if bbt = "" then false else tags.contains bbt
       | none => false)

/-- The scan loop with its break. -/
def scan_entries (notesdir : String) (branch_base_tag : Option String) :
    ScanState → List ScanEntry → ScanState
  | st, [] => st
  | st, e :: rest =>
      let r := process_entry notesdir branch_base_tag st e
      if r.2 then r.1 else scan_entries notesdir branch_base_tag r.1 rest

/-- Inversion of `earliest_seen` into per-version note lists (lines
720-737): every seen version gets an empty bucket, then each uid appends its
recorded (path, sha) pair to the bucket of its earliest version; a uid with
no recorded path (deleted, or otherwise unresolvable) is skipped with a
diagnostic. -/
def invert_earliest (st : ScanState) : List (String × List (String × String)) :=
  let files_and_tags := st.versions.map (fun v => (v, ([] : List (String × String))))
  st.earliest_seen.foldl
    (fun fat uv =>
      match alookup st.last_name_by_id uv.1 with
      | some bs =>
          if (alookup fat uv.2).isSome then dict_append fat uv.2 bs else fat
      | none => fat)
    files_and_tags

/-- Python `str.isdigit` on the ASCII digits that `\d` matches here. -/
def is_ascii_digit (c : Char) : Bool :=
  '0' ≤ c && c ≤ '9'

/-- The `(?:[ab]|rc)+` atom chain of `PRE_RELEASE_RE`: consume a maximal run
of marker atoms (`a`, `b`, or `rc`) and report how many were consumed. -/
def take_markers : List Char → Nat × List Char
  | 'a' :: rest => let r := take_markers rest; (r.1 + 1, r.2)
  | 'b' :: rest => let r := take_markers rest; (r.1 + 1, r.2)
  | 'r' :: 'c' :: rest => let r := take_markers rest; (r.1 + 1, r.2)
  | l => (0, l)

/-- Membership in the capture group language of `PRE_RELEASE_RE`,
`\d+(?:[ab]|rc)+\d*` anchored on the whole string: one or more digits, one
or more marker atoms, then optional digits.  The marker characters are not
digits, so maximal-munch parsing decides membership exactly. -/
def is_pre_release_group (g : List Char) : Bool :=
  let d1 := g.takeWhile is_ascii_digit
  let r1 := g.dropWhile is_ascii_digit
  if d1.isEmpty then false
  else
    let r := take_markers r1
    if r.1 = 0 then false else r.2.all is_ascii_digit

/-- The leftmost match of `PRE_RELEASE_RE` (`\.(\d+(?:[ab]|rc)+\d*)$`): the
first dot whose entire remainder is in the capture-group language; the
returned value is the capture group (`pre_release_match.groups()[0]`). -/
def pre_release_match_list : List Char → Option (List Char)
  | [] => none
  | c :: rest =>
      if c = '.' && is_pre_release_group rest then some rest
      else pre_release_match_list rest

/-- `PRE_RELEASE_RE.search(v)`, returning the capture group when the pattern
matches. -/
def pre_release_match (v : String) : Option String :=
  (pre_release_match_list v.data).map String.mk

/-- Python `str.rstrip('.')`. -/
def rstrip_dots (s : String) : String :=
  String.mk (s.data.reverse.dropWhile (fun c => c = '.')).reverse

/-- The collapse target of one version label (lines 749-764): a label whose
suffix matches `PRE_RELEASE_RE` is replaced by the label with the matched
group stripped (and trailing dots removed), but only when that canonical
label is itself in the known version list; otherwise the label stands. -/
def collapse_key (versions_by_date : List String) (ov : String) : String :=
  match pre_release_match ov with
  | none => ov
  | some g =>
      let canonical :=
        rstrip_dots (String.mk (ov.data.take (ov.data.length - g.data.length)))
      if versions_by_date.contains canonical then canonical else ov

/-- `dict.setdefault`-plus-`extend`: append a whole list to the bucket of a
key, creating the binding at the end if absent (the
`if canonical_ver not in files_and_tags` / `extend` pair of lines
765-767). -/
def dict_extend (m : List (String × List (String × String))) (k : String)
    (xs : List (String × String)) : List (String × List (String × String)) :=
  match m with
  | [] => [(k, xs)]
  | kv :: rest =>
      if kv.1 = k then (kv.1, kv.2 ++ xs) :: rest
      else kv :: dict_extend rest k xs

/-- The pre-release collapsing pass (lines 741-767): walk the known versions
in date order; a version with no bucket is skipped; otherwise its bucket is
appended to the bucket of its collapse key. -/
def collapse_pre_releases (versions_by_date : List String)
    (collapsing : List (String × List (String × String))) :
    List (String × List (String × String)) :=
  versions_by_date.foldl
    (fun fat ov =>
      match alookup collapsing ov with
      | none => fat
      | some bucket => dict_extend fat (collapse_key versions_by_date ov) bucket)
    []

/-- The final trimming pass (lines 769-788): walk the known versions in date
order, skipping versions with a missing or empty bucket; a kept bucket is
sorted (Python tuple order on the (path, sha) pairs); after keeping the
configured earliest version the loop breaks. -/
def trim_output (versions_by_date : List String) (earliest_version : Option String)
    (files_and_tags : List (String × List (String × String))) :
    List (String × List (String × String)) :=
  match versions_by_date with
  | [] => []
  | ov :: rest =>
      let bucket := (alookup files_and_tags ov).getD []
      if bucket.isEmpty then trim_output rest earliest_version files_and_tags
      else
        let entry := (ov, stable_sort pair_lt bucket)
        if (match earliest_version with
            | some e => if e = "" then false else decide (ov = e)
            | none => false)
        then [entry]
        else entry :: trim_output rest earliest_version files_and_tags

/-- Embedding of `Scanner.get_notes_by_version` from line 562 on: the
current version is put at the front of the known versions if it is not
already among them, the scan loop runs from the branch head, `earliest_seen`
is inverted into buckets, pre-releases are collapsed when requested, and the
output is trimmed to the sorted non-empty buckets in date order. -/
def get_notes_by_version (notesdir : String) (entries : List ScanEntry)
    (versions_by_date0 : List String) (current_version : String)
    (earliest_version branch_base_tag : Option String) (collapse : Bool) :
    List (String × List (String × String)) :=
  let versions_by_date :=
    if versions_by_date0.contains current_version then versions_by_date0
    else current_version :: versions_by_date0
  let st0 : ScanState :=
    { versions := [], current_version := current_version, earliest_seen := [],
      last_name_by_id := [], uniqueids_deleted := [] }
  let st := scan_entries notesdir branch_base_tag st0 entries
  let files_and_tags := invert_earliest st
  let files_and_tags :=
    if collapse then collapse_pre_releases versions_by_date files_and_tags
    else files_and_tags
  trim_output versions_by_date earliest_version files_and_tags

end Reno

namespace Reno

/-! ## The lexicographic orders used by the sorting passes -/

lemma char_eq_of_not_lt {a b : Char} (h1 : ¬ a < b) (h2 : ¬ b < a) : a = b :=
  le_antisymm (le_of_not_lt h2) (le_of_not_lt h1)

lemma chars_lt_trans (a : List Char) : ∀ b c, chars_lt a b = true →
    chars_lt b c = true → chars_lt a c = true := by
  induction a with
  | nil =>
      intro b c hab hbc
      match b, c with
      | [], _ => simp [chars_lt] at hab
      | y :: ys, [] => simp [chars_lt] at hbc
      | y :: ys, z :: zs => rfl
  | cons x xs ih =>
      intro b c hab hbc
      match b, c with
      | [], _ => simp [chars_lt] at hab
      | y :: ys, [] => simp [chars_lt] at hbc
      | y :: ys, z :: zs =>
          simp only [chars_lt] at hab hbc ⊢
          by_cases hxy : x < y
          · by_cases hyz : y < z
            · simp [lt_trans hxy hyz]
            · by_cases hzy : z < y
              · simp [hyz, hzy] at hbc
              · have heq : y = z := char_eq_of_not_lt hyz hzy
                subst heq
                simp [hxy]
          · by_cases hyx : y < x
            · simp [hxy, hyx] at hab
            · have heq : x = y := char_eq_of_not_lt hxy hyx
              subst heq
              simp only [hxy, if_neg, lt_irrefl, if_false] at hab
              by_cases hxz : x < z
              · simp [hxz]
              · by_cases hzx : z < x
                · simp [hxz, hzx] at hbc
                · have heq2 : x = z := char_eq_of_not_lt hxz hzx
                  subst heq2
                  simp only [lt_irrefl, if_neg, if_false] at hbc ⊢
                  exact ih ys zs hab hbc

lemma chars_lt_conn (a : List Char) : ∀ b, chars_lt a b = false →
    chars_lt b a = true ∨ a = b := by
  induction a with
  | nil =>
      intro b h
      match b with
      | [] => right; rfl
      | y :: ys => simp [chars_lt] at h
  | cons x xs ih =>
      intro b h
      match b with
      | [] => left; rfl
      | y :: ys =>
          simp only [chars_lt] at h ⊢
          by_cases hxy : x < y
          · simp [hxy] at h
          · by_cases hyx : y < x
            · left; simp [hyx]
            · have heq : x = y := char_eq_of_not_lt hxy hyx
              subst heq
              simp only [lt_irrefl, if_neg, if_false] at h ⊢
              rcases ih ys h with hlt | heq2
              · left
                exact hlt
              · right
                rw [heq2]

lemma str_lt_trans {a b c : String} (hab : str_lt a b = true)
    (hbc : str_lt b c = true) : str_lt a c = true :=
  chars_lt_trans a.data b.data c.data hab hbc

lemma str_lt_conn {a b : String} (h : str_lt a b = false) :
    str_lt b a = true ∨ a = b := by
  rcases chars_lt_conn a.data b.data h with hlt | heq
  · exact Or.inl hlt
  · exact Or.inr (String.ext heq)

/-- The non-strict Python tuple order on (path, sha) pairs. -/
def pair_le (x y : String × String) : Prop :=
  pair_lt x y = true ∨ x = y

lemma pair_lt_trans {x y z : String × String} (hxy : pair_lt x y = true)
    (hyz : pair_lt y z = true) : pair_lt x z = true := by
  simp only [pair_lt, Bool.or_eq_true, Bool.and_eq_true, beq_iff_eq] at hxy hyz ⊢
  rcases hxy with h1 | ⟨he1, h1⟩
  · rcases hyz with h2 | ⟨he2, h2⟩
    · exact Or.inl (str_lt_trans h1 h2)
    · exact Or.inl (he2 ▸ h1)
  · rcases hyz with h2 | ⟨he2, h2⟩
    · exact Or.inl (he1 ▸ h2)
    · exact Or.inr ⟨he1.trans he2, str_lt_trans h1 h2⟩

lemma pair_lt_conn {x y : String × String} (h : pair_lt x y = false) :
    pair_lt y x = true ∨ x = y := by
  simp only [pair_lt, Bool.or_eq_false_iff, Bool.and_eq_false_iff] at h
  obtain ⟨h1, h2⟩ := h
  rcases str_lt_conn h1 with hlt | heq
  · left
    simp [pair_lt, hlt]
  · rcases h2 with h2 | h2
    · simp [heq] at h2
    · rcases str_lt_conn h2 with hlt2 | heq2
      · left
        simp [pair_lt, heq, hlt2]
      · right
        exact Prod.ext heq heq2

lemma pairwise_sorted_pairs (l : List (String × String)) :
    (stable_sort pair_lt l).Pairwise pair_le := by
  refine pairwise_stable_sort ?_ ?_ ?_ l
  · intro a b hab
    exact Or.inl hab
  · intro a b hab
    rcases pair_lt_conn hab with hlt | heq
    · exact Or.inl hlt
    · exact Or.inr heq.symm
  · intro a b c hab hbc
    rcases hab with hab | rfl
    · rcases hbc with hbc | rfl
      · exact Or.inl (pair_lt_trans hab hbc)
      · exact Or.inl hab
    · exact hbc

end Reno

namespace Reno

lemma trim_output_buckets (ev : Option String)
    (fat : List (String × List (String × String))) :
    ∀ (vbd : List String) v bucket, (v, bucket) ∈ trim_output vbd ev fat →
    ∃ b0, bucket = stable_sort pair_lt b0 := by
  intro vbd
  induction vbd with
  | nil => intro v bucket h; simp [trim_output] at h
  | cons ov rest ih =>
      intro v bucket h
      simp only [trim_output] at h
      by_cases hemp : ((alookup fat ov).getD []).isEmpty
      · rw [if_pos hemp] at h
        exact ih v bucket h
      · rw [if_neg hemp] at h
        cases hbrk : (match ev with
            | some e => if e = "" then false else decide (ov = e)
            | none => false) with
        | true =>
            rw [hbrk] at h
            simp only [if_true] at h
            have heq := List.mem_singleton.mp h
            exact ⟨(alookup fat ov).getD [], congrArg Prod.snd heq⟩
        | false =>
            rw [hbrk] at h
            simp only [Bool.false_eq_true, if_false] at h
            rcases List.mem_cons.mp h with heq | hmem
            · exact ⟨(alookup fat ov).getD [], congrArg Prod.snd heq⟩
            · exact ih v bucket hmem

/-- C3, corrected: the entries of a version bucket are sorted as Python
tuples, i.e. lexicographically by (full path, commit sha) — not by the
16-character note identifier.  In this scan two notes land in the `1.0.0`
bucket ordered `a-ffffffffffffffff` before `b-0000000000000000`: ascending
by path, strictly descending by note identifier. -/
theorem c3_counterexample :
    get_notes_by_version "notes"
        [⟨"c1", ["1.0.0"],
          [.add "ffffffffffffffff" "a-ffffffffffffffff.yaml" "c1",
           .add "0000000000000000" "b-0000000000000000.yaml" "c1"]⟩]
        ["1.0.0"] "1.0.0" none none true =
      [("1.0.0", [("notes/a-ffffffffffffffff.yaml", "c1"),
                  ("notes/b-0000000000000000.yaml", "c1")])] ∧
    get_unique_id "notes/a-ffffffffffffffff.yaml" = "ffffffffffffffff" ∧
    get_unique_id "notes/b-0000000000000000.yaml" = "0000000000000000" ∧
    str_lt "0000000000000000" "ffffffffffffffff" = true := by
  exact ⟨rfl, rfl, rfl, by decide⟩

/-- C3, amended: every bucket of the full-scan output is sorted — in
Python's tuple order on the (path, commit sha) pairs (which is a path
order, not an order on the filename-embedded note identifier). -/
theorem c3_bucket_order (notesdir : String) (entries : List ScanEntry)
    (versions_by_date0 : List String) (current_version : String)
    (earliest_version branch_base_tag : Option String) (collapse : Bool)
    (v : String) (bucket : List (String × String))
    (hmem : (v, bucket) ∈ get_notes_by_version notesdir entries
      versions_by_date0 current_version earliest_version branch_base_tag
      collapse) :
    bucket.Pairwise pair_le := by
  obtain ⟨b0, hb0⟩ := trim_output_buckets earliest_version _ _ v bucket hmem
  rw [hb0]
  exact pairwise_sorted_pairs b0

/-- Witness for `c3_bucket_order` on the counterexample scan. -/
theorem c3_witness :
    ([("notes/a-ffffffffffffffff.yaml", "c1"),
      ("notes/b-0000000000000000.yaml", "c1")] :
        List (String × String)).Pairwise pair_le :=
  c3_bucket_order "notes"
    [⟨"c1", ["1.0.0"],
      [.add "ffffffffffffffff" "a-ffffffffffffffff.yaml" "c1",
       .add "0000000000000000" "b-0000000000000000.yaml" "c1"]⟩]
    ["1.0.0"] "1.0.0" none none true "1.0.0" _ (List.mem_singleton_self _)

end Reno

namespace Reno

lemma alookup_dict_extend_self (m : List (String × List (String × String)))
    (k : String) (xs : List (String × String)) :
    alookup (dict_extend m k xs) k = some ((alookup m k).getD [] ++ xs) := by
  induction m with
  | nil => simp [dict_extend, alookup]
  | cons kv rest ih =>
      by_cases hk : kv.1 = k
      · simp [dict_extend, hk, alookup]
      · simp only [dict_extend, if_neg hk, alookup, if_neg hk]
        exact ih

lemma alookup_dict_extend_other (m : List (String × List (String × String)))
    (k q : String) (xs : List (String × String)) (hne : k ≠ q) :
    alookup (dict_extend m k xs) q = alookup m q := by
  induction m with
  | nil => simp [dict_extend, alookup, fun h => hne h]
  | cons kv rest ih =>
      by_cases hk : kv.1 = k
      · have h2 : kv.1 ≠ q := hk ▸ hne
        simp [dict_extend, hk, alookup, h2, hne]
      · by_cases hq : kv.1 = q
        · simp [dict_extend, hk, alookup, hq, Ne.symm hne]
        · simp only [dict_extend, if_neg hk, alookup, if_neg hq]
          exact ih

lemma dict_extend_mono (m : List (String × List (String × String)))
    (k q : String) (xs l : List (String × String))
    (h : alookup m q = some l) :
    ∃ l2, alookup (dict_extend m k xs) q = some l2 ∧ ∀ x ∈ l, x ∈ l2 := by
  by_cases hk : k = q
  · subst hk
    refine ⟨(alookup m k).getD [] ++ xs, alookup_dict_extend_self m k xs, ?_⟩
    intro x hx
    rw [h]
    exact List.mem_append_left _ hx
  · exact ⟨l, by rw [alookup_dict_extend_other m k q xs hk]; exact h,
      fun x hx => hx⟩

/-- The collapse loop only grows buckets. -/
lemma collapse_fold_mono (vbd_all : List String)
    (collapsing : List (String × List (String × String))) :
    ∀ (vbd : List String) fat q l, alookup fat q = some l →
    ∃ l2, alookup (vbd.foldl
        (fun fat2 ov =>
          match alookup collapsing ov with
          | none => fat2
          | some bucket => dict_extend fat2 (collapse_key vbd_all ov) bucket)
        fat) q = some l2 ∧ ∀ x ∈ l, x ∈ l2 := by
  intro vbd
  induction vbd with
  | nil => intro fat q l h; exact ⟨l, h, fun x hx => hx⟩
  | cons ov rest ih =>
      intro fat q l h
      simp only [List.foldl_cons]
      cases hb : alookup collapsing ov with
      | none => exact ih fat q l h
      | some bucket =>
          obtain ⟨l1, h1, hsub1⟩ :=
            dict_extend_mono fat (collapse_key vbd_all ov) q bucket l h
          obtain ⟨l2, h2, hsub2⟩ := ih _ q l1 h1
          exact ⟨l2, h2, fun x hx => hsub2 x (hsub1 x hx)⟩

lemma collapse_fold_mem (vbd_all : List String)
    (collapsing : List (String × List (String × String))) :
    ∀ (vbd : List String) fat ov bucket, ov ∈ vbd →
    alookup collapsing ov = some bucket →
    ∃ l, alookup (vbd.foldl
        (fun fat2 ov2 =>
          match alookup collapsing ov2 with
          | none => fat2
          | some b => dict_extend fat2 (collapse_key vbd_all ov2) b)
        fat) (collapse_key vbd_all ov) = some l ∧ ∀ x ∈ bucket, x ∈ l := by
  intro vbd
  induction vbd with
  | nil => intro fat ov bucket h; simp at h
  | cons ov2 rest ih =>
      intro fat ov bucket hmem hb
      simp only [List.foldl_cons]
      rcases List.mem_cons.mp hmem with rfl | hmem2
      · rw [hb]
        have hself := alookup_dict_extend_self fat (collapse_key vbd_all ov) bucket
        obtain ⟨l2, h2, hsub⟩ := collapse_fold_mono vbd_all collapsing rest
          (dict_extend fat (collapse_key vbd_all ov) bucket)
          (collapse_key vbd_all ov) _ hself
        exact ⟨l2, h2, fun x hx =>
          hsub x (List.mem_append_right _ hx)⟩
      · cases hb2 : alookup collapsing ov2 with
        | none => exact ih fat ov bucket hmem2 hb
        | some b2 => exact ih _ ov bucket hmem2 hb

/-- C6, corrected: the pre-release pattern requires at least one digit
between the final dot and the marker (`\.(\d+(?:[ab]|rc)+\d*)$`), so a label
of the claimed form `<prefix>.<marker><digits>`, such as `1.0.0.rc1`, never
matches and is never folded — even though its stripped label `1.0.0` is a
known tagged version with its own bucket. -/
theorem c6_counterexample :
    "1.0.0.rc1" = "1.0.0" ++ "." ++ "rc" ++ "1" ∧
    ("1.0.0" : String) ∈ ["1.0.0.rc1", "1.0.0"] ∧
    pre_release_match "1.0.0.rc1" = none ∧
    collapse_pre_releases ["1.0.0.rc1", "1.0.0"]
        [("1.0.0.rc1", [("notes/a.yaml", "c1")]),
         ("1.0.0", [("notes/b.yaml", "c2")])] =
      [("1.0.0.rc1", [("notes/a.yaml", "c1")]),
       ("1.0.0", [("notes/b.yaml", "c2")])] := by
  exact ⟨rfl, by decide, rfl, rfl⟩

/-- C6, amended: a version label is folded exactly when its suffix matches
`\.(\d+(?:[ab]|rc)+\d*)$` (one or more digits, then markers `a`, `b`, `rc`,
then optional digits) and the label obtained by stripping the matched group
and trailing dots is itself in the known version list; then its bucket's
entries are appended to that canonical label's bucket, and otherwise the
label keeps its own bucket. -/
theorem c6_pre_release_collapse (versions_by_date : List String)
    (collapsing : List (String × List (String × String)))
    (ov : String) (bucket : List (String × String)) (g : String)
    (hov : ov ∈ versions_by_date)
    (hb : alookup collapsing ov = some bucket)
    (hmatch : pre_release_match ov = some g) :
    (rstrip_dots (String.mk (ov.data.take (ov.data.length - g.data.length))) ∈
        versions_by_date →
      ∃ l, alookup (collapse_pre_releases versions_by_date collapsing)
          (rstrip_dots (String.mk (ov.data.take (ov.data.length - g.data.length))))
          = some l ∧ ∀ x ∈ bucket, x ∈ l) ∧
    (rstrip_dots (String.mk (ov.data.take (ov.data.length - g.data.length))) ∉
        versions_by_date →
      ∃ l, alookup (collapse_pre_releases versions_by_date collapsing) ov
          = some l ∧ ∀ x ∈ bucket, x ∈ l) := by
  constructor
  · intro hknown
    have hcontains : versions_by_date.contains
        (rstrip_dots (String.mk (ov.data.take (ov.data.length - g.data.length))))
        = true := List.elem_eq_true_of_mem hknown
    have hkey : collapse_key versions_by_date ov =
        rstrip_dots (String.mk (ov.data.take (ov.data.length - g.data.length))) := by
      unfold collapse_key
      rw [hmatch]
      show (if versions_by_date.contains
          (rstrip_dots (String.mk (ov.data.take (ov.data.length - g.data.length))))
          = true
        then rstrip_dots (String.mk (ov.data.take (ov.data.length - g.data.length)))
        else ov) = _
      rw [hcontains]
      rfl
    have h := collapse_fold_mem versions_by_date collapsing versions_by_date
      [] ov bucket hov hb
    rw [hkey] at h
    exact h
  · intro hunknown
    have hcontains : versions_by_date.contains
        (rstrip_dots (String.mk (ov.data.take (ov.data.length - g.data.length))))
        = false := by
      cases hc : versions_by_date.contains
          (rstrip_dots (String.mk (ov.data.take (ov.data.length - g.data.length))))
      · rfl
      · exact absurd (List.mem_of_elem_eq_true hc) hunknown
    have hkey : collapse_key versions_by_date ov = ov := by
      unfold collapse_key
      rw [hmatch]
      show (if versions_by_date.contains
          (rstrip_dots (String.mk (ov.data.take (ov.data.length - g.data.length))))
          = true
        then rstrip_dots (String.mk (ov.data.take (ov.data.length - g.data.length)))
        else ov) = _
      rw [hcontains]
      rfl
    have h := collapse_fold_mem versions_by_date collapsing versions_by_date
      [] ov bucket hov hb
    rw [hkey] at h
    exact h

/-- Witness for `c6_pre_release_collapse`: `1.0.0.0a1` folds into the known
`1.0.0`, while `2.0.0.0b1` (whose stripped label `2.0.0` was never tagged)
keeps its own bucket. -/
theorem c6_witness :
    (∃ l, alookup (collapse_pre_releases ["1.0.0.0a1", "1.0.0"]
        [("1.0.0.0a1", [("notes/a.yaml", "c1")]),
         ("1.0.0", [("notes/b.yaml", "c2")])]) "1.0.0" = some l ∧
      ∀ x ∈ [(("notes/a.yaml" : String), ("c1" : String))], x ∈ l) ∧
    (∃ l, alookup (collapse_pre_releases ["2.0.0.0b1"]
        [("2.0.0.0b1", [("notes/a.yaml", "c1")])]) "2.0.0.0b1" = some l ∧
      ∀ x ∈ [(("notes/a.yaml" : String), ("c1" : String))], x ∈ l) := by
  constructor
  · exact (c6_pre_release_collapse ["1.0.0.0a1", "1.0.0"]
      [("1.0.0.0a1", [("notes/a.yaml", "c1")]),
       ("1.0.0", [("notes/b.yaml", "c2")])]
      "1.0.0.0a1" [("notes/a.yaml", "c1")] "0a1"
      (by decide) rfl rfl).1 (by decide)
  · exact (c6_pre_release_collapse ["2.0.0.0b1"]
      [("2.0.0.0b1", [("notes/a.yaml", "c1")])]
      "2.0.0.0b1" [("notes/a.yaml", "c1")] "0b1"
      (by decide) rfl rfl).2 (by decide)

end Reno

namespace Reno

/-! ## Per-identifier behaviour of the scan loop (for the delete/re-add
analysis): the scan state projected to one note id evolves by a small state
machine over the id's own change records, paired with the version in effect
at each record. -/

/-- The version in effect while a commit's changes are processed: the last
tag of a tagged commit, the inherited current version otherwise. -/
def entry_version (cv : String) (e : ScanEntry) : String :=
  if e.tags_on_commit.isEmpty then cv else e.tags_on_commit.getLastD ""

/-- The subsequence of change records of one note id over the scanned
entries, each paired with the version in effect when it is processed. -/
def uid_trace (uid : String) : String → List ScanEntry → List (ChangeRecord × String)
  | _, [] => []
  | cv, e :: rest =>
      (e.changes.filter (fun c => c.uid = uid)).map
          (fun c => (c, entry_version cv e)) ++
        uid_trace uid (entry_version cv e) rest

/-- The scan state as seen by one note id. -/
structure UidState where
  last_name : Option (String × String)
  deleted : Bool
  earliest : Option String
deriving Repr, DecidableEq

/-- The per-record transition of one note id, mirroring `process_change`
for records of that id. -/
def uid_step (notesdir : String) (s : UidState) (rv : ChangeRecord × String) :
    UidState :=
  let s := { s with earliest := some rv.2 }
  if s.deleted then s
  else
    match rv.1 with
    | .add _ path sha =>
        if s.last_name.isNone then
          { s with last_name := some (path_join notesdir path, sha) }
        else s
    | .delete _ _ =>
        if s.last_name.isNone then { s with deleted := true } else s
    | .rename _ _ newPath sha =>
        if s.last_name.isNone then
          { s with last_name := some (path_join notesdir newPath, sha) }
        else s
    | .modify _ path sha =>
        if s.last_name.isNone then
          { s with last_name := some (path_join notesdir path, sha) }
        else s

/-- The projection of the scan state to one note id. -/
def proj (st : ScanState) (uid : String) : UidState :=
  ⟨alookup st.last_name_by_id uid, st.uniqueids_deleted.contains uid,
    alookup st.earliest_seen uid⟩

lemma alookup_dict_insert {β : Type} (m : List (String × β)) (k q : String)
    (v : β) : alookup (dict_insert m k v) q =
      if k = q then some v else alookup m q := by
  induction m with
  | nil => simp [dict_insert, alookup]
  | cons kv rest ih =>
      by_cases hk : kv.1 = k
      · by_cases hq : k = q
        · simp [dict_insert, hk, alookup, hq, hk.trans hq]
        · have h2 : kv.1 ≠ q := fun h => hq (hk ▸ h)
          simp [dict_insert, hk, alookup, h2, hq]
      · by_cases hq : kv.1 = q
        · have h2 : k ≠ q := fun h => hk (h ▸ hq)
          simp [dict_insert, hk, alookup, hq, h2, Ne.symm h2]
        · simp only [dict_insert, if_neg hk, alookup, if_neg hq]
          exact ih

lemma contains_append_single (l : List String) (k q : String) :
    (l ++ [k]).contains q = (l.contains q || decide (k = q)) := by
  induction l with
  | nil => simp [eq_comm]
  | cons x rest ih =>
      by_cases hx : x = q
      · subst hx
        simp
      · simp only [List.cons_append, List.contains_cons] at *
        rw [ih]
        by_cases hq : q == x
        · simp [hq]
        · simp [hq]

lemma process_change_proj (notesdir : String) (st : ScanState)
    (c : ChangeRecord) (uid : String) :
    proj (process_change notesdir st c) uid =
      (if c.uid = uid then uid_step notesdir (proj st uid) (c, st.current_version)
       else proj st uid) ∧
    (process_change notesdir st c).current_version = st.current_version ∧
    (process_change notesdir st c).versions = st.versions := by
  refine ⟨?_, ?_, ?_⟩
  · by_cases huid : c.uid = uid
    · rw [if_pos huid]
      cases c with
      | add u p s =>
          have hu : uid = u := Eq.symm huid
          subst hu
          simp only [process_change, ChangeRecord.uid, uid_step, proj]
          cases hdel : st.uniqueids_deleted.contains uid with
          | true =>
              have hmemD : uid ∈ st.uniqueids_deleted := List.mem_of_elem_eq_true hdel
              simp [hmemD, hdel, alookup_dict_insert, contains_append_single]
          | false =>
              have hmemD : uid ∉ st.uniqueids_deleted := fun hm => by
                simp at hdel
                exact hdel hm
              by_cases hnm : alookup st.last_name_by_id uid = none
              · simp [hmemD, hdel, hnm, alookup_dict_insert, contains_append_single]
              · obtain ⟨w, hw⟩ := Option.ne_none_iff_exists'.mp hnm
                simp [hmemD, hdel, hw, alookup_dict_insert, contains_append_single]
      | delete u p =>
          have hu : uid = u := Eq.symm huid
          subst hu
          simp only [process_change, ChangeRecord.uid, uid_step, proj]
          cases hdel : st.uniqueids_deleted.contains uid with
          | true =>
              have hmemD : uid ∈ st.uniqueids_deleted := List.mem_of_elem_eq_true hdel
              simp [hmemD, hdel, alookup_dict_insert, contains_append_single]
          | false =>
              have hmemD : uid ∉ st.uniqueids_deleted := fun hm => by
                simp at hdel
                exact hdel hm
              by_cases hnm : alookup st.last_name_by_id uid = none
              · simp [hmemD, hdel, hnm, alookup_dict_insert, contains_append_single]
              · obtain ⟨w, hw⟩ := Option.ne_none_iff_exists'.mp hnm
                simp [hmemD, hdel, hw, alookup_dict_insert, contains_append_single]
      | rename u op np s =>
          have hu : uid = u := Eq.symm huid
          subst hu
          simp only [process_change, ChangeRecord.uid, uid_step, proj]
          cases hdel : st.uniqueids_deleted.contains uid with
          | true =>
              have hmemD : uid ∈ st.uniqueids_deleted := List.mem_of_elem_eq_true hdel
              simp [hmemD, hdel, alookup_dict_insert, contains_append_single]
          | false =>
              have hmemD : uid ∉ st.uniqueids_deleted := fun hm => by
                simp at hdel
                exact hdel hm
              by_cases hnm : alookup st.last_name_by_id uid = none
              · simp [hmemD, hdel, hnm, alookup_dict_insert, contains_append_single]
              · obtain ⟨w, hw⟩ := Option.ne_none_iff_exists'.mp hnm
                simp [hmemD, hdel, hw, alookup_dict_insert, contains_append_single]
      | modify u p s =>
          have hu : uid = u := Eq.symm huid
          subst hu
          simp only [process_change, ChangeRecord.uid, uid_step, proj]
          cases hdel : st.uniqueids_deleted.contains uid with
          | true =>
              have hmemD : uid ∈ st.uniqueids_deleted := List.mem_of_elem_eq_true hdel
              simp [hmemD, hdel, alookup_dict_insert, contains_append_single]
          | false =>
              have hmemD : uid ∉ st.uniqueids_deleted := fun hm => by
                simp at hdel
                exact hdel hm
              by_cases hnm : alookup st.last_name_by_id uid = none
              · simp [hmemD, hdel, hnm, alookup_dict_insert, contains_append_single]
              · obtain ⟨w, hw⟩ := Option.ne_none_iff_exists'.mp hnm
                simp [hmemD, hdel, hw, alookup_dict_insert, contains_append_single]
    · rw [if_neg huid]
      have hne : c.uid ≠ uid := huid
      cases c with
      | add u p s =>
          simp only [ChangeRecord.uid] at hne
          simp only [process_change, ChangeRecord.uid, proj]
          cases hdel : st.uniqueids_deleted.contains u with
          | true =>
              have hmemD : u ∈ st.uniqueids_deleted := List.mem_of_elem_eq_true hdel
              simp [hmemD, hdel, alookup_dict_insert, contains_append_single, hne, Ne.symm hne]
          | false =>
              have hmemD : u ∉ st.uniqueids_deleted := fun hm => by
                simp at hdel
                exact hdel hm
              by_cases hnm : alookup st.last_name_by_id u = none
              · simp [hmemD, hdel, hnm, alookup_dict_insert, contains_append_single, hne, Ne.symm hne]
              · obtain ⟨w, hw⟩ := Option.ne_none_iff_exists'.mp hnm
                simp [hmemD, hdel, hw, alookup_dict_insert, contains_append_single, hne, Ne.symm hne]
      | delete u p =>
          simp only [ChangeRecord.uid] at hne
          simp only [process_change, ChangeRecord.uid, proj]
          cases hdel : st.uniqueids_deleted.contains u with
          | true =>
              have hmemD : u ∈ st.uniqueids_deleted := List.mem_of_elem_eq_true hdel
              simp [hmemD, hdel, alookup_dict_insert, contains_append_single, hne, Ne.symm hne]
          | false =>
              have hmemD : u ∉ st.uniqueids_deleted := fun hm => by
                simp at hdel
                exact hdel hm
              by_cases hnm : alookup st.last_name_by_id u = none
              · simp [hmemD, hdel, hnm, alookup_dict_insert, contains_append_single, hne, Ne.symm hne]
              · obtain ⟨w, hw⟩ := Option.ne_none_iff_exists'.mp hnm
                simp [hmemD, hdel, hw, alookup_dict_insert, contains_append_single, hne, Ne.symm hne]
      | rename u op np s =>
          simp only [ChangeRecord.uid] at hne
          simp only [process_change, ChangeRecord.uid, proj]
          cases hdel : st.uniqueids_deleted.contains u with
          | true =>
              have hmemD : u ∈ st.uniqueids_deleted := List.mem_of_elem_eq_true hdel
              simp [hmemD, hdel, alookup_dict_insert, contains_append_single, hne, Ne.symm hne]
          | false =>
              have hmemD : u ∉ st.uniqueids_deleted := fun hm => by
                simp at hdel
                exact hdel hm
              by_cases hnm : alookup st.last_name_by_id u = none
              · simp [hmemD, hdel, hnm, alookup_dict_insert, contains_append_single, hne, Ne.symm hne]
              · obtain ⟨w, hw⟩ := Option.ne_none_iff_exists'.mp hnm
                simp [hmemD, hdel, hw, alookup_dict_insert, contains_append_single, hne, Ne.symm hne]
      | modify u p s =>
          simp only [ChangeRecord.uid] at hne
          simp only [process_change, ChangeRecord.uid, proj]
          cases hdel : st.uniqueids_deleted.contains u with
          | true =>
              have hmemD : u ∈ st.uniqueids_deleted := List.mem_of_elem_eq_true hdel
              simp [hmemD, hdel, alookup_dict_insert, contains_append_single, hne, Ne.symm hne]
          | false =>
              have hmemD : u ∉ st.uniqueids_deleted := fun hm => by
                simp at hdel
                exact hdel hm
              by_cases hnm : alookup st.last_name_by_id u = none
              · simp [hmemD, hdel, hnm, alookup_dict_insert, contains_append_single, hne, Ne.symm hne]
              · obtain ⟨w, hw⟩ := Option.ne_none_iff_exists'.mp hnm
                simp [hmemD, hdel, hw, alookup_dict_insert, contains_append_single, hne, Ne.symm hne]
  · cases c <;>
      · simp only [process_change]
        split
        · rfl
        · split <;> rfl
  · cases c <;>
      · simp only [process_change]
        split
        · rfl
        · split <;> rfl

end Reno

namespace Reno

lemma process_changes_proj (notesdir : String) (changes : List ChangeRecord) :
    ∀ (st : ScanState) (uid : String),
    proj (changes.foldl (process_change notesdir) st) uid =
      ((changes.filter (fun c => c.uid = uid)).map
          (fun c => (c, st.current_version))).foldl (uid_step notesdir)
        (proj st uid) ∧
    (changes.foldl (process_change notesdir) st).current_version =
      st.current_version ∧
    (changes.foldl (process_change notesdir) st).versions = st.versions := by
  induction changes with
  | nil => intro st uid; exact ⟨rfl, rfl, rfl⟩
  | cons c rest ih =>
      intro st uid
      obtain ⟨hp, hcv, hvs⟩ := process_change_proj notesdir st c uid
      obtain ⟨hp2, hcv2, hvs2⟩ := ih (process_change notesdir st c) uid
      refine ⟨?_, by rw [List.foldl_cons, hcv2, hcv],
        by rw [List.foldl_cons, hvs2, hvs]⟩
      rw [List.foldl_cons, hp2, hcv, hp]
      by_cases huid : c.uid = uid
      · simp [List.filter_cons, huid]
      · simp [List.filter_cons, huid]

lemma scan_entries_proj (notesdir : String) (entries : List ScanEntry) :
    ∀ (st : ScanState) (uid : String),
    proj (scan_entries notesdir none st entries) uid =
      (uid_trace uid st.current_version entries).foldl (uid_step notesdir)
        (proj st uid) := by
  induction entries with
  | nil => intro st uid; rfl
  | cons e rest ih =>
      intro st uid
      show proj (scan_entries notesdir none
        (e.changes.foldl (process_change notesdir)
          { st with
            current_version := entry_version st.current_version e,
            versions :=
              if st.versions.contains (entry_version st.current_version e)
              then st.versions
              else st.versions ++ [entry_version st.current_version e] })
        rest) uid = _
      rw [ih]
      have hmid := process_changes_proj notesdir e.changes
        { st with
          current_version := entry_version st.current_version e,
          versions :=
            if st.versions.contains (entry_version st.current_version e)
            then st.versions
            else st.versions ++ [entry_version st.current_version e] } uid
      rw [hmid.2.1, hmid.1]
      rw [show uid_trace uid st.current_version (e :: rest) =
          (e.changes.filter (fun c => c.uid = uid)).map
            (fun c => (c, entry_version st.current_version e)) ++
          uid_trace uid (entry_version st.current_version e) rest from rfl]
      rw [List.foldl_append]
      rfl

end Reno

namespace Reno

/-- Does the record set a name (add/rename/modify) rather than delete? -/
def sets_name : ChangeRecord → Bool
  | .delete _ _ => false
  | _ => true

/-- The (joined path, commit sha) pair a name-setting record stores. -/
def record_name (notesdir : String) : ChangeRecord → Option (String × String)
  | .add _ p s => some (path_join notesdir p, s)
  | .rename _ _ np s => some (path_join notesdir np, s)
  | .modify _ p s => some (path_join notesdir p, s)
  | .delete _ _ => none

lemma uid_step_earliest (notesdir : String) (s : UidState)
    (rv : ChangeRecord × String) :
    (uid_step notesdir s rv).earliest = some rv.2 := by
  cases hd : s.deleted
  · cases h1 : rv.1 <;>
      · simp only [uid_step, hd, h1, Bool.false_eq_true, if_false]
        cases hn : s.last_name.isNone <;> simp [hn]
  · simp [uid_step, hd]

lemma uid_fold_earliest (notesdir : String) (tr : List (ChangeRecord × String))
    (s0 : UidState) (r : ChangeRecord × String) :
    ((tr ++ [r]).foldl (uid_step notesdir) s0).earliest = some r.2 := by
  rw [List.foldl_append]
  exact uid_step_earliest notesdir _ r

lemma uid_step_keeps_name (notesdir : String) (s : UidState) (nm : String × String)
    (rv : ChangeRecord × String) (hn : s.last_name = some nm)
    (hd : s.deleted = false) :
    (uid_step notesdir s rv).last_name = some nm ∧
    (uid_step notesdir s rv).deleted = false := by
  obtain ⟨r, v⟩ := rv
  cases r <;> simp [uid_step, hd, hn]

lemma uid_fold_keeps_name (notesdir : String) (tr : List (ChangeRecord × String)) :
    ∀ (s : UidState) (nm : String × String), s.last_name = some nm →
    s.deleted = false →
    (tr.foldl (uid_step notesdir) s).last_name = some nm ∧
    (tr.foldl (uid_step notesdir) s).deleted = false := by
  induction tr with
  | nil => intro s nm hn hd; exact ⟨hn, hd⟩
  | cons rv rest ih =>
      intro s nm hn hd
      obtain ⟨hn2, hd2⟩ := uid_step_keeps_name notesdir s nm rv hn hd
      exact ih (uid_step notesdir s rv) nm hn2 hd2

lemma uid_step_keeps_deleted (notesdir : String) (s : UidState)
    (rv : ChangeRecord × String) (hd : s.deleted = true) :
    (uid_step notesdir s rv).last_name = s.last_name ∧
    (uid_step notesdir s rv).deleted = true := by
  obtain ⟨r, v⟩ := rv
  cases r <;> simp [uid_step, hd]

lemma uid_fold_keeps_deleted (notesdir : String)
    (tr : List (ChangeRecord × String)) :
    ∀ (s : UidState), s.deleted = true →
    (tr.foldl (uid_step notesdir) s).last_name = s.last_name ∧
    (tr.foldl (uid_step notesdir) s).deleted = true := by
  induction tr with
  | nil => intro s hd; exact ⟨rfl, hd⟩
  | cons rv rest ih =>
      intro s hd
      obtain ⟨hn2, hd2⟩ := uid_step_keeps_deleted notesdir s rv hd
      obtain ⟨hn3, hd3⟩ := ih (uid_step notesdir s rv) hd2
      exact ⟨hn3.trans hn2, hd3⟩

lemma uid_step_first_name (notesdir : String) (r : ChangeRecord) (v : String)
    (nm : String × String) (hr : record_name notesdir r = some nm) :
    (uid_step notesdir ⟨none, false, none⟩ (r, v)).last_name = some nm ∧
    (uid_step notesdir ⟨none, false, none⟩ (r, v)).deleted = false := by
  cases r with
  | add u p s =>
      simp only [record_name] at hr
      simp [uid_step, hr]
  | delete u p => simp [record_name] at hr
  | rename u op np s =>
      simp only [record_name] at hr
      simp [uid_step, hr]
  | modify u p s =>
      simp only [record_name] at hr
      simp [uid_step, hr]

lemma uid_step_first_delete (notesdir : String) (u p v : String) :
    (uid_step notesdir ⟨none, false, none⟩ (.delete u p, v)).last_name = none ∧
    (uid_step notesdir ⟨none, false, none⟩ (.delete u p, v)).deleted = true := by
  simp [uid_step]

end Reno

namespace Reno

/-- Every version recorded in `earliest_seen` is a key of `versions`
(the scan appends the current version to `versions` before processing a
commit's changes). -/
def versions_closed (st : ScanState) : Prop :=
  ∀ u v, (u, v) ∈ st.earliest_seen → v ∈ st.versions

lemma mem_dict_insert {β : Type} {m : List (String × β)} {k u : String}
    {v w : β} (h : (u, v) ∈ dict_insert m k w) :
    (u, v) ∈ m ∨ (u = k ∧ v = w) := by
  induction m with
  | nil =>
      simp only [dict_insert, List.mem_singleton] at h
      exact Or.inr ⟨congrArg Prod.fst h, congrArg Prod.snd h⟩
  | cons kv rest ih =>
      by_cases hk : kv.1 = k
      · rw [dict_insert, if_pos hk] at h
        rcases List.mem_cons.mp h with heq | hmem
        · exact Or.inr ⟨(congrArg Prod.fst heq).trans hk,
            congrArg Prod.snd heq⟩
        · exact Or.inl (List.mem_cons_of_mem _ hmem)
      · rw [dict_insert, if_neg hk] at h
        rcases List.mem_cons.mp h with heq | hmem
        · exact Or.inl (heq ▸ List.mem_cons_self _ _)
        · rcases ih hmem with hmem2 | hkw
          · exact Or.inl (List.mem_cons_of_mem _ hmem2)
          · exact Or.inr hkw

lemma process_change_closed (notesdir : String) (st : ScanState)
    (c : ChangeRecord) (hcl : versions_closed st)
    (hcv : st.current_version ∈ st.versions) :
    versions_closed (process_change notesdir st c) ∧
    (process_change notesdir st c).current_version ∈
      (process_change notesdir st c).versions := by
  obtain ⟨hp, hcv2, hvs⟩ := process_change_proj notesdir st c c.uid
  have hes : (process_change notesdir st c).earliest_seen =
      dict_insert st.earliest_seen c.uid st.current_version := by
    cases c <;>
      · simp only [process_change]
        split
        · rfl
        · split <;> rfl
  refine ⟨?_, by rw [hcv2, hvs]; exact hcv⟩
  intro u v hmem
  rw [hes] at hmem
  rw [hvs]
  rcases mem_dict_insert hmem with hmem2 | ⟨rfl, rfl⟩
  · exact hcl u v hmem2
  · exact hcv

lemma process_changes_closed (notesdir : String) (changes : List ChangeRecord) :
    ∀ (st : ScanState), versions_closed st →
    st.current_version ∈ st.versions →
    versions_closed (changes.foldl (process_change notesdir) st) := by
  induction changes with
  | nil => intro st hcl _; exact hcl
  | cons c rest ih =>
      intro st hcl hcv
      obtain ⟨hcl2, hcv2⟩ := process_change_closed notesdir st c hcl hcv
      exact ih _ hcl2 hcv2

lemma scan_entries_closed (notesdir : String) (bbt : Option String)
    (entries : List ScanEntry) :
    ∀ (st : ScanState), versions_closed st →
    versions_closed (scan_entries notesdir bbt st entries) := by
  induction entries with
  | nil => intro st hcl; exact hcl
  | cons e rest ih =>
      intro st hcl
      have hclv : ∀ u v, (u, v) ∈ st.earliest_seen →
          v ∈ (if st.versions.contains (entry_version st.current_version e)
               then st.versions
               else st.versions ++ [entry_version st.current_version e]) := by
        intro u v hmem
        have hv := hcl u v hmem
        split
        · exact hv
        · exact List.mem_append_left _ hv
      have hcvv : entry_version st.current_version e ∈
          (if st.versions.contains (entry_version st.current_version e)
           then st.versions
           else st.versions ++ [entry_version st.current_version e]) := by
        split
        · next hc => exact List.mem_of_elem_eq_true hc
        · simp
      have hmid := process_changes_closed notesdir e.changes
        { st with
          current_version := entry_version st.current_version e,
          versions := (if st.versions.contains (entry_version st.current_version e)
                       then st.versions
                       else st.versions ++ [entry_version st.current_version e]) }
        hclv hcvv
      show versions_closed (if (process_entry notesdir bbt st e).2 then
        (process_entry notesdir bbt st e).1
        else scan_entries notesdir bbt (process_entry notesdir bbt st e).1 rest)
      have hfst : (process_entry notesdir bbt st e).1 =
          e.changes.foldl (process_change notesdir)
            { st with
              current_version := entry_version st.current_version e,
              versions := (if st.versions.contains
                    (entry_version st.current_version e)
                  then st.versions
                  else st.versions ++ [entry_version st.current_version e]) } := rfl
      by_cases hstop : (process_entry notesdir bbt st e).2
      · rw [if_pos hstop, hfst]
        exact hmid
      · rw [if_neg hstop, hfst]
        exact ih _ hmid

end Reno

namespace Reno

lemma alookup_dict_append {β : Type} (m : List (String × List β))
    (k q : String) (x : β) :
    alookup (dict_append m k x) q =
      if k = q then some ((alookup m k).getD [] ++ [x]) else alookup m q := by
  induction m with
  | nil =>
      by_cases hq : k = q
      · simp [dict_append, alookup, hq]
      · simp [dict_append, alookup, hq, fun h => hq h]
  | cons kv rest ih =>
      by_cases hk : kv.1 = k
      · by_cases hq : k = q
        · simp [dict_append, hk, alookup, hq, hk.trans hq]
        · have h2 : kv.1 ≠ q := fun h => hq (hk.symm.trans h)
          simp [dict_append, hk, alookup, h2, hq]
      · by_cases hq : kv.1 = q
        · have h2 : k ≠ q := fun h => hk (hq ▸ h.symm ▸ rfl)
          simp [dict_append, hk, alookup, hq, h2, Ne.symm h2]
        · rw [dict_append, if_neg hk]
          show (if kv.1 = q then some kv.2 else alookup (dict_append rest k x) q) = _
          rw [if_neg hq, ih]
          by_cases h3 : k = q
          · subst h3
            rw [if_pos rfl, if_pos rfl]
            have : alookup (kv :: rest) k = alookup rest k := by
              simp [alookup, hk]
            rw [this]
          · rw [if_neg h3, if_neg h3]
            simp [alookup, hq]

lemma invert_fold_mono (ln : List (String × (String × String)))
    (es : List (String × String)) :
    ∀ (fat : List (String × List (String × String))) q x,
    x ∈ (alookup fat q).getD [] →
    x ∈ (alookup (es.foldl
      (fun fat2 uv =>
        match alookup ln uv.1 with
        | some bs =>
            if (alookup fat2 uv.2).isSome then dict_append fat2 uv.2 bs else fat2
        | none => fat2) fat) q).getD [] := by
  induction es with
  | nil => intro fat q x h; exact h
  | cons uv rest ih =>
      intro fat q x h
      rw [List.foldl_cons]
      cases hln : alookup ln uv.1 with
      | none => exact ih fat q x h
      | some bs =>
          by_cases hs : (alookup fat uv.2).isSome
          · simp only [hln, hs, if_true]
            exact ih _ q x (mem_dict_append_mono fat uv.2 q bs x h)
          · simp only [hln, hs, if_false]
            exact ih fat q x h

lemma invert_fold_some (ln : List (String × (String × String)))
    (es : List (String × String)) :
    ∀ (fat : List (String × List (String × String))) q,
    (alookup fat q).isSome →
    (alookup (es.foldl
      (fun fat2 uv =>
        match alookup ln uv.1 with
        | some bs =>
            if (alookup fat2 uv.2).isSome then dict_append fat2 uv.2 bs else fat2
        | none => fat2) fat) q).isSome := by
  induction es with
  | nil => intro fat q h; exact h
  | cons uv rest ih =>
      intro fat q h
      rw [List.foldl_cons]
      cases hln : alookup ln uv.1 with
      | none => exact ih fat q h
      | some bs =>
          by_cases hs : (alookup fat uv.2).isSome
          · simp only [hln, hs, if_true]
            refine ih _ q ?_
            rw [alookup_dict_append]
            by_cases hk : uv.2 = q
            · simp [hk]
            · simp only [hk, if_false]
              exact h
          · simp only [hln, hs, if_false]
            exact ih fat q h

lemma invert_fold_mem (ln : List (String × (String × String)))
    (es : List (String × String)) :
    ∀ (fat : List (String × List (String × String))) uid v bs,
    (uid, v) ∈ es → alookup ln uid = some bs → (alookup fat v).isSome →
    bs ∈ (alookup (es.foldl
      (fun fat2 uv =>
        match alookup ln uv.1 with
        | some bs2 =>
            if (alookup fat2 uv.2).isSome then dict_append fat2 uv.2 bs2 else fat2
        | none => fat2) fat) v).getD [] := by
  induction es with
  | nil => intro fat uid v bs hmem; simp at hmem
  | cons uv rest ih =>
      intro fat uid v bs hmem hln hsome
      rw [List.foldl_cons]
      rcases List.mem_cons.mp hmem with heq | hmem2
      · have h1 : uv.1 = uid := by rw [← heq]
        have h2 : uv.2 = v := by rw [← heq]
        simp only [h1, h2, hln, hsome, if_true]
        exact invert_fold_mono ln rest _ v bs (mem_dict_append_self fat v bs)
      · cases hln2 : alookup ln uv.1 with
        | none => exact ih fat uid v bs hmem2 hln hsome
        | some bs2 =>
            by_cases hs : (alookup fat uv.2).isSome
            · simp only [hs, if_true]
              refine ih _ uid v bs hmem2 hln ?_
              rw [alookup_dict_append]
              by_cases hk : uv.2 = v
              · simp [hk]
              · simp only [hk, if_false]
                exact hsome
            · simp only [hs, if_false]
              exact ih fat uid v bs hmem2 hln hsome

lemma alookup_init_buckets (versions : List String) (q : String) :
    (alookup (versions.map (fun v => (v, ([] : List (String × String))))) q).isSome
      ↔ q ∈ versions := by
  induction versions with
  | nil => simp [alookup]
  | cons v rest ih =>
      by_cases hv : v = q
      · simp [alookup, hv]
      · simp only [List.map_cons, alookup, if_neg hv, List.mem_cons, ih]
        constructor
        · intro h; exact Or.inr h
        · intro h
          rcases h with h | h
          · exact absurd h.symm hv
          · exact h

/-- A recorded (path, sha) pair lands in the bucket of its earliest-seen
version when that version is among the seen versions. -/
lemma invert_earliest_mem (st : ScanState) (uid v : String)
    (bs : String × String) (hes : alookup st.earliest_seen uid = some v)
    (hln : alookup st.last_name_by_id uid = some bs)
    (hv : v ∈ st.versions) :
    bs ∈ (alookup (invert_earliest st) v).getD [] := by
  unfold invert_earliest
  exact invert_fold_mem st.last_name_by_id st.earliest_seen _ uid v bs
    (alookup_mem hes) hln
    ((alookup_init_buckets st.versions v).mpr hv)

end Reno

namespace Reno

/-- Every entry of every bucket produced by the inversion is a recorded
last-name pair of some note id. -/
lemma invert_fold_source (ln : List (String × (String × String)))
    (es : List (String × String)) :
    ∀ (fat : List (String × List (String × String))),
    (∀ q l e, alookup fat q = some l → e ∈ l →
      ∃ u, alookup ln u = some e) →
    ∀ q l e, alookup (es.foldl
      (fun fat2 uv =>
        match alookup ln uv.1 with
        | some bs2 =>
            if (alookup fat2 uv.2).isSome then dict_append fat2 uv.2 bs2 else fat2
        | none => fat2) fat) q = some l → e ∈ l →
    ∃ u, alookup ln u = some e := by
  induction es with
  | nil => intro fat hsrc q l e h he; exact hsrc q l e h he
  | cons uv rest ih =>
      intro fat hsrc q l e h he
      rw [List.foldl_cons] at h
      cases hln2 : alookup ln uv.1 with
      | none =>
          simp only [hln2] at h
          exact ih fat hsrc q l e h he
      | some bs2 =>
          simp only [hln2] at h
          by_cases hs : (alookup fat uv.2).isSome
          · rw [if_pos hs] at h
            refine ih _ ?_ q l e h he
            intro q2 l2 e2 h2 he2
            rw [alookup_dict_append] at h2
            by_cases hk : uv.2 = q2
            · rw [if_pos hk] at h2
              cases Option.some.inj h2
              rcases List.mem_append.mp he2 with hm | hm
              · cases hg : alookup fat uv.2 with
                | none => rw [hg] at hm; simp at hm
                | some l3 =>
                    rw [hg] at hm
                    exact hsrc uv.2 l3 e2 hg hm
              · cases List.mem_singleton.mp hm
                exact ⟨uv.1, hln2⟩
            · rw [if_neg hk] at h2
              exact hsrc q2 l2 e2 h2 he2
          · rw [if_neg hs] at h
            exact ih fat hsrc q l e h he

lemma init_buckets_empty (versions : List String) :
    ∀ (q : String) (l : List (String × String)),
    alookup (versions.map (fun v => (v, ([] : List (String × String))))) q =
      some l → l = [] := by
  induction versions with
  | nil => intro q l h; simp [alookup] at h
  | cons v rest ih =>
      intro q l h
      by_cases hv : v = q
      · simp only [List.map_cons, alookup, if_pos hv] at h
        exact (Option.some.inj h).symm
      · simp only [List.map_cons, alookup, if_neg hv] at h
        exact ih q l h

lemma invert_earliest_source (st : ScanState) (q : String)
    (l : List (String × String)) (e : String × String)
    (h : alookup (invert_earliest st) q = some l) (he : e ∈ l) :
    ∃ u, alookup st.last_name_by_id u = some e := by
  unfold invert_earliest at h
  refine invert_fold_source st.last_name_by_id st.earliest_seen _ ?_ q l e h he
  intro q2 l2 e2 h2 he2
  rw [init_buckets_empty st.versions q2 l2 h2] at he2
  simp at he2

/-- Every entry of every bucket after collapsing comes from some bucket of
the pre-collapse mapping. -/
lemma collapse_fold_source (vbd_all : List String)
    (collapsing : List (String × List (String × String))) :
    ∀ (vbd : List String) (fat : List (String × List (String × String))),
    (∀ q l e, alookup fat q = some l → e ∈ l →
      ∃ ov b, alookup collapsing ov = some b ∧ e ∈ b) →
    ∀ q l e, alookup (vbd.foldl
      (fun fat2 ov =>
        match alookup collapsing ov with
        | none => fat2
        | some bucket => dict_extend fat2 (collapse_key vbd_all ov) bucket) fat)
        q = some l → e ∈ l →
    ∃ ov b, alookup collapsing ov = some b ∧ e ∈ b := by
  intro vbd
  induction vbd with
  | nil => intro fat hsrc q l e h he; exact hsrc q l e h he
  | cons ov rest ih =>
      intro fat hsrc q l e h he
      rw [List.foldl_cons] at h
      cases hb : alookup collapsing ov with
      | none =>
          simp only [hb] at h
          exact ih fat hsrc q l e h he
      | some bucket =>
          simp only [hb] at h
          refine ih _ ?_ q l e h he
          intro q2 l2 e2 h2 he2
          by_cases hk : collapse_key vbd_all ov = q2
          · rw [← hk, alookup_dict_extend_self] at h2
            cases Option.some.inj h2
            rcases List.mem_append.mp he2 with hm | hm
            · cases hg : alookup fat (collapse_key vbd_all ov) with
              | none => rw [hg] at hm; simp at hm
              | some l3 =>
                  rw [hg] at hm
                  exact hsrc _ l3 e2 hg hm
            · exact ⟨ov, bucket, hb, hm⟩
          · rw [alookup_dict_extend_other _ _ _ _ hk] at h2
            exact hsrc q2 l2 e2 h2 he2

/-- Every entry of every bucket of the trimmed output lies in some bucket of
the mapping being trimmed. -/
lemma trim_output_source (ev : Option String)
    (fat : List (String × List (String × String))) :
    ∀ (vbd : List String) v bucket e, (v, bucket) ∈ trim_output vbd ev fat →
    e ∈ bucket → ∃ v2 b2, alookup fat v2 = some b2 ∧ e ∈ b2 := by
  intro vbd
  induction vbd with
  | nil => intro v bucket e h; simp [trim_output] at h
  | cons ov rest ih =>
      intro v bucket e h he
      simp only [trim_output] at h
      by_cases hemp : ((alookup fat ov).getD []).isEmpty
      · rw [if_pos hemp] at h
        exact ih v bucket e h he
      · rw [if_neg hemp] at h
        have hkept : (v, bucket) = (ov, stable_sort pair_lt ((alookup fat ov).getD []))
            → ∃ v2 b2, alookup fat v2 = some b2 ∧ e ∈ b2 := by
          intro heq
          have hb : bucket = stable_sort pair_lt ((alookup fat ov).getD []) :=
            congrArg Prod.snd heq
          rw [hb] at he
          have he2 := (mem_stable_sort pair_lt e _).mp he
          cases hg : alookup fat ov with
          | none =>
              rw [hg] at he2
              simp at he2
          | some b2 =>
              rw [hg] at he2
              exact ⟨ov, b2, hg, he2⟩
        cases hbrk : (match ev with
            | some e2 => if e2 = "" then false else decide (ov = e2)
            | none => false) with
        | true =>
            rw [hbrk] at h
            simp only [if_true] at h
            exact hkept (List.mem_singleton.mp h)
        | false =>
            rw [hbrk] at h
            simp only [Bool.false_eq_true, if_false] at h
            rcases List.mem_cons.mp h with heq | hmem
            · exact hkept heq
            · exact ih v bucket e hmem he

end Reno

namespace Reno

/-- C4, confirmed.  Consider one note id's change records in scan order
(newest first), each paired with the version in effect (`uid_trace`).
(1) If the newest record is an add/rename/modify — in particular whenever
the id was deleted in one commit but re-added in a later one, so that a
delete appears only after a name-setting record — the id is never marked
deleted: it keeps the (path, sha) of its newest record and that pair lands
in the bucket of its earliest-seen version (the version of the oldest
record) in the inverted mapping.  (2) If the newest record is a delete —
the id was deleted and never re-added afterward — the id has no recorded
path, is marked deleted, and contributes to no bucket of the final output:
every entry of every output bucket is the recorded pair of some other id. -/
theorem c4_delete_readd (notesdir : String) (entries : List ScanEntry)
    (cv0 uid : String) :
    (∀ r rest, uid_trace uid cv0 entries = r :: rest →
      sets_name r.1 = true → (∃ d ∈ rest, sets_name d.1 = false) →
      (scan_entries notesdir none ⟨[], cv0, [], [], []⟩
          entries).uniqueids_deleted.contains uid = false ∧
      ∃ nm vl, record_name notesdir r.1 = some nm ∧
        alookup (scan_entries notesdir none ⟨[], cv0, [], [], []⟩
          entries).last_name_by_id uid = some nm ∧
        (r :: rest).getLast? = some vl ∧
        nm ∈ (alookup (invert_earliest (scan_entries notesdir none
          ⟨[], cv0, [], [], []⟩ entries)) vl.2).getD []) ∧
    (∀ r rest, uid_trace uid cv0 entries = r :: rest →
      sets_name r.1 = false →
      alookup (scan_entries notesdir none ⟨[], cv0, [], [], []⟩
        entries).last_name_by_id uid = none ∧
      (scan_entries notesdir none ⟨[], cv0, [], [], []⟩
        entries).uniqueids_deleted.contains uid = true ∧
      ∀ (vbd0 : List String) (ev : Option String) (collapse : Bool) v b e,
        (v, b) ∈ get_notes_by_version notesdir entries vbd0 cv0 ev none collapse →
        e ∈ b →
        ∃ u, u ≠ uid ∧
          alookup (scan_entries notesdir none ⟨[], cv0, [], [], []⟩
            entries).last_name_by_id u = some e) := by
  have hproj := scan_entries_proj notesdir entries ⟨[], cv0, [], [], []⟩ uid
  have hinit : proj ⟨[], cv0, [], [], []⟩ uid = ⟨none, false, none⟩ := rfl
  rw [hinit] at hproj
  constructor
  · intro r rest htr hsets hdel
    rw [htr, List.foldl_cons] at hproj
    obtain ⟨nm, hnm⟩ : ∃ nm, record_name notesdir r.1 = some nm := by
      obtain ⟨c, v⟩ := r
      cases c with
      | add u p s => exact ⟨_, rfl⟩
      | delete u p => simp [sets_name] at hsets
      | rename u op np s => exact ⟨_, rfl⟩
      | modify u p s => exact ⟨_, rfl⟩
    have hfirst := uid_step_first_name notesdir r.1 r.2 nm hnm
    obtain ⟨hln, hdl⟩ := uid_fold_keeps_name notesdir rest
      (uid_step notesdir ⟨none, false, none⟩ r) nm hfirst.1 hfirst.2
    have hlast : ∃ vl, (r :: rest).getLast? = some vl := by
      cases h : (r :: rest).getLast? with
      | none => simp [List.getLast?_eq_none_iff] at h
      | some vl => exact ⟨vl, rfl⟩
    obtain ⟨vl, hvl⟩ := hlast
    have hsplit : (r :: rest).dropLast ++ [vl] = r :: rest := by
      have hne : r :: rest ≠ [] := List.cons_ne_nil r rest
      have h2 := List.dropLast_append_getLast hne
      have h3 : (r :: rest).getLast hne = vl := by
        rw [List.getLast?_eq_getLast _ hne] at hvl
        exact Option.some.inj hvl
      rw [h3] at h2
      exact h2
    have hearliest : (rest.foldl (uid_step notesdir)
        (uid_step notesdir ⟨none, false, none⟩ r)).earliest = some vl.2 := by
      have h0 : ((r :: rest).foldl (uid_step notesdir)
          (⟨none, false, none⟩ : UidState)).earliest = some vl.2 := by
        conv =>
          lhs
          rw [← hsplit]
        exact uid_fold_earliest notesdir _ _ vl
      simp only [List.foldl_cons] at h0
      exact h0
    have hlnS : alookup (scan_entries notesdir none ⟨[], cv0, [], [], []⟩
        entries).last_name_by_id uid = some nm :=
      (congrArg UidState.last_name hproj).trans hln
    have hdlS : (scan_entries notesdir none ⟨[], cv0, [], [], []⟩
        entries).uniqueids_deleted.contains uid = false :=
      (congrArg UidState.deleted hproj).trans hdl
    have hesS : alookup (scan_entries notesdir none ⟨[], cv0, [], [], []⟩
        entries).earliest_seen uid = some vl.2 :=
      (congrArg UidState.earliest hproj).trans hearliest
    have hcl : versions_closed (scan_entries notesdir none
        ⟨[], cv0, [], [], []⟩ entries) := by
      refine scan_entries_closed notesdir none entries _ ?_
      intro u v hmem
      simp at hmem
    have hv : vl.2 ∈ (scan_entries notesdir none ⟨[], cv0, [], [], []⟩
        entries).versions := hcl uid vl.2 (alookup_mem hesS)
    exact ⟨hdlS, nm, vl, hnm, hlnS, hvl,
      invert_earliest_mem _ uid vl.2 nm hesS hlnS hv⟩
  · intro r rest htr hsets
    rw [htr, List.foldl_cons] at hproj
    have hstep : uid_step notesdir ⟨none, false, none⟩ r =
        ⟨none, true, some r.2⟩ := by
      cases hr1 : r.1 with
      | add u p s => rw [hr1] at hsets; simp [sets_name] at hsets
      | rename u op np s => rw [hr1] at hsets; simp [sets_name] at hsets
      | modify u p s => rw [hr1] at hsets; simp [sets_name] at hsets
      | delete u p => simp [uid_step, hr1]
    rw [hstep] at hproj
    obtain ⟨hln, hdl⟩ := uid_fold_keeps_deleted notesdir rest
      ⟨none, true, some r.2⟩ rfl
    have hlnS : alookup (scan_entries notesdir none ⟨[], cv0, [], [], []⟩
        entries).last_name_by_id uid = none :=
      (congrArg UidState.last_name hproj).trans hln
    have hdlS : (scan_entries notesdir none ⟨[], cv0, [], [], []⟩
        entries).uniqueids_deleted.contains uid = true :=
      (congrArg UidState.deleted hproj).trans hdl
    refine ⟨hlnS, hdlS, ?_⟩
    intro vbd0 ev collapse v b e hmem he
    have hg : get_notes_by_version notesdir entries vbd0 cv0 ev none collapse =
        trim_output (if vbd0.contains cv0 then vbd0 else cv0 :: vbd0) ev
          (if collapse then
            collapse_pre_releases (if vbd0.contains cv0 then vbd0
              else cv0 :: vbd0)
              (invert_earliest (scan_entries notesdir none
                ⟨[], cv0, [], [], []⟩ entries))
          else invert_earliest (scan_entries notesdir none
            ⟨[], cv0, [], [], []⟩ entries)) := rfl
    rw [hg] at hmem
    obtain ⟨v2, b2, hv2, he2⟩ := trim_output_source ev _ _ v b e hmem he
    have hsource : ∃ u, alookup (scan_entries notesdir none
        ⟨[], cv0, [], [], []⟩ entries).last_name_by_id u = some e := by
      cases collapse with
      | false =>
          simp only [Bool.false_eq_true, if_false] at hv2
          exact invert_earliest_source _ v2 b2 e hv2 he2
      | true =>
          simp only [if_true] at hv2
          obtain ⟨ov, bb, hov, heb⟩ := collapse_fold_source
            (if vbd0.contains cv0 then vbd0 else cv0 :: vbd0)
            (invert_earliest (scan_entries notesdir none
              ⟨[], cv0, [], [], []⟩ entries))
            (if vbd0.contains cv0 then vbd0 else cv0 :: vbd0) []
            (fun q l e2 h _ => by simp [alookup] at h) v2 b2 e hv2 he2
          exact invert_earliest_source _ ov bb e hov heb
    obtain ⟨u, hu⟩ := hsource
    refine ⟨u, ?_, hu⟩
    intro hequ
    rw [hequ, hlnS] at hu
    exact Option.noConfusion hu

/-- Concrete scan history for note ids under C4: id a…a is added, later
deleted, then re-added on a newer commit; id b…b is added and then deleted
with no later re-add. -/
def c4_entries : List ScanEntry :=
  [⟨"c3", [], [.add "aaaaaaaaaaaaaaaa" "new-aaaaaaaaaaaaaaaa.yaml" "c3",
               .delete "bbbbbbbbbbbbbbbb" "gone-bbbbbbbbbbbbbbbb.yaml"]⟩,
   ⟨"c2", [], [.delete "aaaaaaaaaaaaaaaa" "old-aaaaaaaaaaaaaaaa.yaml"]⟩,
   ⟨"c1", ["1.0.0"], [.add "aaaaaaaaaaaaaaaa" "old-aaaaaaaaaaaaaaaa.yaml" "c1",
                      .add "bbbbbbbbbbbbbbbb" "gone-bbbbbbbbbbbbbbbb.yaml"
                        "c0"]⟩]

/-- Witness for C4 at a concrete history: the re-added id a…a is not marked
deleted, keeps its newest name, and lands in the bucket of its earliest
version; the never-re-added id b…b has no name, is marked deleted, and the
only entry of the final output belongs to a different id. -/
theorem c4_witness :
    ((scan_entries "notes" none ⟨[], "0.0.0", [], [], []⟩
        c4_entries).uniqueids_deleted.contains "aaaaaaaaaaaaaaaa" = false ∧
      (∃ nm vl,
        record_name "notes" (ChangeRecord.add "aaaaaaaaaaaaaaaa"
          "new-aaaaaaaaaaaaaaaa.yaml" "c3") = some nm ∧
        alookup (scan_entries "notes" none ⟨[], "0.0.0", [], [], []⟩
          c4_entries).last_name_by_id "aaaaaaaaaaaaaaaa" = some nm ∧
        ((ChangeRecord.add "aaaaaaaaaaaaaaaa" "new-aaaaaaaaaaaaaaaa.yaml"
            "c3", "0.0.0") ::
          [(ChangeRecord.delete "aaaaaaaaaaaaaaaa"
              "old-aaaaaaaaaaaaaaaa.yaml", "0.0.0"),
           (ChangeRecord.add "aaaaaaaaaaaaaaaa" "old-aaaaaaaaaaaaaaaa.yaml"
              "c1", "1.0.0")]).getLast? = some vl ∧
        nm ∈ (alookup (invert_earliest (scan_entries "notes" none
          ⟨[], "0.0.0", [], [], []⟩ c4_entries)) vl.2).getD [])) ∧
    (alookup (scan_entries "notes" none ⟨[], "0.0.0", [], [], []⟩
        c4_entries).last_name_by_id "bbbbbbbbbbbbbbbb" = none ∧
      (scan_entries "notes" none ⟨[], "0.0.0", [], [], []⟩
        c4_entries).uniqueids_deleted.contains "bbbbbbbbbbbbbbbb" = true ∧
      ∃ u, u ≠ "bbbbbbbbbbbbbbbb" ∧
        alookup (scan_entries "notes" none ⟨[], "0.0.0", [], [], []⟩
          c4_entries).last_name_by_id u =
          some ("notes/new-aaaaaaaaaaaaaaaa.yaml", "c3")) := by
  constructor
  · exact (c4_delete_readd "notes" c4_entries "0.0.0" "aaaaaaaaaaaaaaaa").1
      (ChangeRecord.add "aaaaaaaaaaaaaaaa" "new-aaaaaaaaaaaaaaaa.yaml" "c3",
        "0.0.0")
      [(ChangeRecord.delete "aaaaaaaaaaaaaaaa" "old-aaaaaaaaaaaaaaaa.yaml",
          "0.0.0"),
       (ChangeRecord.add "aaaaaaaaaaaaaaaa" "old-aaaaaaaaaaaaaaaa.yaml" "c1",
          "1.0.0")]
      rfl rfl
      ⟨(ChangeRecord.delete "aaaaaaaaaaaaaaaa" "old-aaaaaaaaaaaaaaaa.yaml",
          "0.0.0"), List.Mem.head _, rfl⟩
  · obtain ⟨hln, hdl, hall⟩ :=
      (c4_delete_readd "notes" c4_entries "0.0.0" "bbbbbbbbbbbbbbbb").2
        (ChangeRecord.delete "bbbbbbbbbbbbbbbb" "gone-bbbbbbbbbbbbbbbb.yaml",
          "0.0.0")
        [(ChangeRecord.add "bbbbbbbbbbbbbbbb" "gone-bbbbbbbbbbbbbbbb.yaml"
            "c0", "1.0.0")]
        rfl rfl
    exact ⟨hln, hdl, hall ["1.0.0", "0.0.0"] none false "1.0.0"
      [("notes/new-aaaaaaaaaaaaaaaa.yaml", "c3")]
      ("notes/new-aaaaaaaaaaaaaaaa.yaml", "c3")
      (List.Mem.head _) (List.Mem.head _)⟩

end Reno

namespace Reno

/-- One parent push of `_topo_traversal`: `if p not in todo:
todo.appendleft(p)`. -/
def topo_push (t : List String) (p : String) : List String :=
  if t.contains p then t else p :: t

/-- The `children` index built by the initial walk of `_topo_traversal`:
the reachable commits that list `sha` among their parents. -/
def topo_children (par : String → List String) (reach : List String)
    (sha : String) : List String :=
  reach.filter (fun c => (par c).contains sha)

/-- The worklist loop of `Scanner._topo_traversal`.  `todo` is the deque
used as a stack, `emitted` the set of already-emitted commits, `out` the
sequence yielded so far.  A popped commit with no unemitted reachable
child is emitted and its parents are pushed left to right, skipping
parents already on the stack; a commit with an unemitted child is
dropped (it will be restacked by that child's emission).  Fuel bounds the
iteration count; `none` signals fuel exhaustion or the key error `all[sha]`
would raise on an unreachable commit. -/
def topo_loop (par : String → List String) (reach : List String) :
    Nat → List String → List String → List String → Option (List String)
  | 0, _, _, _ => none
  | fuel + 1, todo, emitted, out =>
      match todo with
      | [] => some out
      | sha :: rest =>
          if reach.contains sha then
            if ((topo_children par reach sha).filter
                (fun c => !(emitted.contains c))).isEmpty then
              topo_loop par reach fuel
                ((par sha).foldl topo_push rest)
                (sha :: emitted) (out ++ [sha])
            else
              topo_loop par reach fuel rest emitted out
          else none

/-- `Scanner._topo_traversal`: run the worklist loop from the head commit
with enough fuel for any terminating run. -/
def topo_traversal (par : String → List String) (reach : List String)
    (head : String) : Option (List String) :=
  topo_loop par reach
    (reach.length * (1 + (reach.map (fun x => (par x).length)).sum) + 2)
    [head] [] []

end Reno

namespace Reno

lemma contains_eq_true_iff (l : List String) (a : String) :
    l.contains a = true ↔ a ∈ l := by
  constructor
  · exact List.mem_of_elem_eq_true
  · exact List.elem_eq_true_of_mem

lemma contains_eq_false_iff (l : List String) (a : String) :
    l.contains a = false ↔ a ∉ l := by
  constructor
  · intro h hm
    rw [(contains_eq_true_iff l a).mpr hm] at h
    exact Bool.noConfusion h
  · intro h
    cases hc : l.contains a with
    | false => rfl
    | true => exact absurd (List.mem_of_elem_eq_true hc) h

lemma mem_topo_push (t : List String) (p x : String) :
    x ∈ topo_push t p ↔ x = p ∨ x ∈ t := by
  unfold topo_push
  by_cases hp : t.contains p = true
  · rw [if_pos hp]
    constructor
    · exact Or.inr
    · intro h
      cases h with
      | inl h => rw [h]; exact (contains_eq_true_iff t p).mp hp
      | inr h => exact h
  · rw [if_neg hp]
    exact List.mem_cons

lemma nodup_topo_push (t : List String) (p : String) (h : t.Nodup) :
    (topo_push t p).Nodup := by
  unfold topo_push
  by_cases hp : t.contains p = true
  · rw [if_pos hp]; exact h
  · rw [if_neg hp]
    refine List.nodup_cons.mpr ⟨?_, h⟩
    exact (contains_eq_false_iff t p).mp (Bool.eq_false_iff.mpr hp)

lemma length_topo_push (t : List String) (p : String) :
    (topo_push t p).length ≤ t.length + 1 := by
  unfold topo_push
  by_cases hp : t.contains p = true
  · rw [if_pos hp]; omega
  · rw [if_neg hp]; simp

lemma mem_foldl_topo_push (l : List String) :
    ∀ (t : List String) (x : String),
      x ∈ l.foldl topo_push t ↔ x ∈ l ∨ x ∈ t := by
  induction l with
  | nil => intro t x; simp
  | cons p l ih =>
      intro t x
      rw [List.foldl_cons, ih]
      rw [mem_topo_push]
      constructor
      · intro h
        rcases h with h | h | h
        · exact Or.inl (List.mem_cons_of_mem p h)
        · exact Or.inl (h ▸ List.mem_cons_self p l)
        · exact Or.inr h
      · intro h
        rcases h with h | h
        · rcases List.mem_cons.mp h with h | h
          · exact Or.inr (Or.inl h)
          · exact Or.inl h
        · exact Or.inr (Or.inr h)

lemma nodup_foldl_topo_push (l : List String) :
    ∀ t : List String, t.Nodup → (l.foldl topo_push t).Nodup := by
  induction l with
  | nil => intro t h; exact h
  | cons p l ih =>
      intro t h
      rw [List.foldl_cons]
      exact ih _ (nodup_topo_push t p h)

lemma length_foldl_topo_push (l : List String) :
    ∀ t : List String, (l.foldl topo_push t).length ≤ t.length + l.length := by
  induction l with
  | nil => intro t; simp
  | cons p l ih =>
      intro t
      rw [List.foldl_cons]
      have h1 := ih (topo_push t p)
      have h2 := length_topo_push t p
      simp only [List.length_cons]
      omega

lemma le_sum_of_mem_nat (l : List Nat) : ∀ x ∈ l, x ≤ l.sum := by
  induction l with
  | nil => intro x hx; cases hx
  | cons a l ih =>
      intro x hx
      rw [List.sum_cons]
      cases List.mem_cons.mp hx with
      | inl h => rw [h]; exact Nat.le_add_right a l.sum
      | inr h => exact Nat.le_trans (ih x h) (Nat.le_add_left l.sum a)

lemma le_foldr_max (l : List Nat) : ∀ x ∈ l, x ≤ l.foldr max 0 := by
  induction l with
  | nil => intro x hx; cases hx
  | cons a l ih =>
      intro x hx
      rw [List.foldr_cons]
      cases List.mem_cons.mp hx with
      | inl h => rw [h]; exact Nat.le_max_left a (l.foldr max 0)
      | inr h => exact Nat.le_trans (ih x h) (Nat.le_max_right a (l.foldr max 0))

lemma filter_not_cons_length (q : String → Bool) (a : String) :
    ∀ l : List String, l.Nodup → a ∈ l → q a = true →
      (l.filter (fun x => q x && !(x == a))).length + 1 =
        (l.filter q).length := by
  intro l
  induction l with
  | nil => intro _ ha; cases ha
  | cons b l ih =>
      intro hnd ha hq
      obtain ⟨hbl, hlnd⟩ := List.nodup_cons.mp hnd
      by_cases hba : b = a
      · have hal : a ∉ l := fun h => hbl (hba ▸ h)
        have hcongr : l.filter (fun x => q x && !(x == a)) = l.filter q := by
          refine List.filter_congr ?_
          intro x hx
          have hxb : (x == a) = false := by
            simp only [beq_eq_false_iff_ne, ne_eq]
            intro hxe
            exact hal (hxe ▸ hx)
          rw [hxb]
          simp
        have h1 : (b :: l).filter (fun x => q x && !(x == a)) =
            l.filter (fun x => q x && !(x == a)) := by
          rw [List.filter_cons]
          rw [show (q b && !(b == a)) = false by rw [hba]; simp [hq]]
          simp
        have h2 : (b :: l).filter q = b :: l.filter q := by
          rw [List.filter_cons]
          rw [show q b = true by rw [hba]; exact hq]
          simp
        rw [h1, h2, hcongr]
        simp
      · have hal : a ∈ l := by
          cases List.mem_cons.mp ha with
          | inl h => exact absurd h.symm hba
          | inr h => exact h
        have hbeq : (b == a) = false := by
          simp only [beq_eq_false_iff_ne, ne_eq]
          exact hba
        have hih := ih hlnd hal hq
        by_cases hqb : q b = true
        · have h1 : (b :: l).filter (fun x => q x && !(x == a)) =
              b :: l.filter (fun x => q x && !(x == a)) := by
            rw [List.filter_cons]
            rw [show (q b && !(b == a)) = true by rw [hqb, hbeq]; rfl]
            simp
          have h2 : (b :: l).filter q = b :: l.filter q := by
            rw [List.filter_cons, hqb]
            simp
          rw [h1, h2]
          simp only [List.length_cons]
          omega
        · have hqb2 : q b = false := Bool.eq_false_iff.mpr hqb
          have h1 : (b :: l).filter (fun x => q x && !(x == a)) =
              l.filter (fun x => q x && !(x == a)) := by
            rw [List.filter_cons]
            rw [show (q b && !(b == a)) = false by rw [hqb2]; rfl]
            simp
          have h2 : (b :: l).filter q = l.filter q := by
            rw [List.filter_cons, hqb2]
            simp
          rw [h1, h2]
          exact hih

end Reno

namespace Reno

/-- Loop invariant of the `_topo_traversal` worklist: the emitted set
mirrors the output, the stack holds distinct unemitted reachable commits,
emitted commits are reachable and children-closed in emission order, and
every unemitted reachable commit is on the stack or has an unemitted
reachable child. -/
def topo_inv (par : String → List String) (reach : List String)
    (todo emitted out : List String) : Prop :=
  emitted = out.reverse ∧
  todo.Nodup ∧
  emitted.Nodup ∧
  (∀ x ∈ todo, x ∈ reach) ∧
  (∀ x ∈ todo, x ∉ emitted) ∧
  (∀ x ∈ emitted, x ∈ reach) ∧
  (∀ (i : Nat) (x c : String), out[i]? = some x → c ∈ reach → x ∈ par c →
    ∃ j, j < i ∧ out[j]? = some c) ∧
  (∀ x ∈ reach, x ∉ emitted →
    x ∈ todo ∨ ∃ c ∈ reach, x ∈ par c ∧ c ∉ emitted)

/-- With an empty worklist, the progress invariant together with a rank
function that grows from parents to children forces every reachable
commit to be emitted. -/
lemma topo_complete (par : String → List String) (reach : List String)
    (rank : String → Nat) (emitted : List String)
    (hrank : ∀ c ∈ reach, ∀ p ∈ par c, rank p < rank c)
    (hprog : ∀ x ∈ reach, x ∉ emitted →
      ∃ c ∈ reach, x ∈ par c ∧ c ∉ emitted) :
    ∀ x ∈ reach, x ∈ emitted := by
  have hbound : ∀ y ∈ reach, rank y ≤ (reach.map rank).foldr max 0 :=
    fun y hy => le_foldr_max (reach.map rank) (rank y)
      (List.mem_map_of_mem rank hy)
  have key : ∀ n, ∀ x ∈ reach,
      (reach.map rank).foldr max 0 - rank x < n → x ∈ emitted := by
    intro n
    induction n with
    | zero => intro x _ h; omega
    | succ n ih =>
        intro x hx h
        by_contra hxe
        obtain ⟨c, hc, hpar, hce⟩ := hprog x hx hxe
        have h1 : rank x < rank c := hrank c hc x hpar
        have h2 : rank c ≤ (reach.map rank).foldr max 0 := hbound c hc
        exact hce (ih c hc (by omega))
  intro x hx
  exact key ((reach.map rank).foldr max 0 + 1) x hx
    (by have := hbound x hx; omega)

end Reno

namespace Reno

lemma mem_of_getElem_some (l : List String) (i : Nat) (a : String)
    (h : l[i]? = some a) : a ∈ l := by
  obtain ⟨hi, he⟩ := List.getElem?_eq_some.mp h
  exact he ▸ l.getElem_mem hi

lemma topo_fuel_emit (a C restlen parlen tlen fuel : Nat)
    (h1 : (a + 1) * C + (restlen + 1) < fuel + 1)
    (h2 : tlen ≤ restlen + parlen)
    (h3 : parlen + 1 ≤ C) :
    a * C + tlen < fuel := by
  have e1 : (a + 1) * C = a * C + C := Nat.succ_mul a C
  rw [e1] at h1
  omega

/-- Every run of the `_topo_traversal` worklist loop that starts in an
invariant state with enough fuel ends with the worklist empty and yields
an output that is duplicate-free, covers exactly the reachable commits,
and emits every commit after all of its reachable children. -/
lemma topo_loop_spec (par : String → List String) (reach : List String)
    (rank : String → Nat)
    (hclosed : ∀ x ∈ reach, ∀ p ∈ par x, p ∈ reach)
    (hrank : ∀ c ∈ reach, ∀ p ∈ par c, rank p < rank c) :
    ∀ (fuel : Nat) (todo emitted out : List String),
      topo_inv par reach todo emitted out →
      (reach.dedup.filter (fun x => !(emitted.contains x))).length *
          (1 + (reach.map (fun x => (par x).length)).sum) + todo.length <
        fuel →
      ∃ res, topo_loop par reach fuel todo emitted out = some res ∧
        res.Nodup ∧ (∀ x, x ∈ res ↔ x ∈ reach) ∧
        (∀ (i : Nat) (x c : String), res[i]? = some x → c ∈ reach →
          x ∈ par c → ∃ j, j < i ∧ res[j]? = some c) := by
  intro fuel
  induction fuel with
  | zero => intro todo emitted out _ hfu; omega
  | succ fuel ih =>
      intro todo emitted out hinv hfu
      obtain ⟨hrev, htnd, hend, htreach, htnem, hereach, hord, hprog⟩ := hinv
      have hmem_out : ∀ x : String, x ∈ emitted ↔ x ∈ out := by
        intro x
        rw [hrev, List.mem_reverse]
      cases todo with
      | nil =>
          refine ⟨out, rfl, ?_, ?_, hord⟩
          · rw [← List.nodup_reverse, ← hrev]
            exact hend
          · intro x
            constructor
            · intro hx
              exact hereach x ((hmem_out x).mpr hx)
            · intro hx
              have hprog2 : ∀ y ∈ reach, y ∉ emitted →
                  ∃ c ∈ reach, y ∈ par c ∧ c ∉ emitted := by
                intro y hy hyne
                rcases hprog y hy hyne with h | h
                · cases h
                · exact h
              exact (hmem_out x).mp
                (topo_complete par reach rank emitted hrank hprog2 x hx)
      | cons sha rest =>
          have hsha : sha ∈ reach := htreach sha (List.mem_cons_self sha rest)
          have hshane : sha ∉ emitted :=
            htnem sha (List.mem_cons_self sha rest)
          obtain ⟨hsr, hrnd⟩ := List.nodup_cons.mp htnd
          have hcs : reach.contains sha = true :=
            (contains_eq_true_iff reach sha).mpr hsha
          have horder_mem : ∀ x ∈ emitted, ∀ c ∈ reach, x ∈ par c →
              c ∈ emitted := by
            intro x hx c hcr hpar
            obtain ⟨n, hn, he⟩ := List.getElem_of_mem ((hmem_out x).mp hx)
            obtain ⟨j, hj, hjo⟩ := hord n x c
              (by rw [List.getElem?_eq_getElem hn, he]) hcr hpar
            exact (hmem_out c).mpr (mem_of_getElem_some out j c hjo)
          have hstep : topo_loop par reach (fuel + 1) (sha :: rest)
              emitted out =
              if ((topo_children par reach sha).filter
                  (fun c => !(emitted.contains c))).isEmpty then
                topo_loop par reach fuel
                  ((par sha).foldl topo_push rest)
                  (sha :: emitted) (out ++ [sha])
              else
                topo_loop par reach fuel rest emitted out := by
            simp only [topo_loop, hcs, if_true]
          rw [hstep]
          cases hfe : (topo_children par reach sha).filter
              (fun c => !(emitted.contains c)) with
          | nil =>
              have hall : ∀ c ∈ reach, sha ∈ par c → c ∈ emitted := by
                intro c hcr hcp
                by_contra hce
                have h1 : c ∈ topo_children par reach sha :=
                  List.mem_filter.mpr
                    ⟨hcr, (contains_eq_true_iff _ _).mpr hcp⟩
                have hb : (!(emitted.contains c)) = true := by
                  rw [(contains_eq_false_iff emitted c).mpr hce]
                  rfl
                have h2 : c ∈ (topo_children par reach sha).filter
                    (fun c => !(emitted.contains c)) :=
                  List.mem_filter.mpr ⟨h1, hb⟩
                rw [hfe] at h2
                cases h2
              have hinv2 : topo_inv par reach
                  ((par sha).foldl topo_push rest)
                  (sha :: emitted) (out ++ [sha]) := by
                refine ⟨?_, ?_, ?_, ?_, ?_, ?_, ?_, ?_⟩
                · rw [List.reverse_append]
                  simp [hrev]
                · exact nodup_foldl_topo_push (par sha) rest hrnd
                · exact List.nodup_cons.mpr ⟨hshane, hend⟩
                · intro x hx
                  rcases (mem_foldl_topo_push (par sha) rest x).mp hx
                    with h | h
                  · exact hclosed sha hsha x h
                  · exact htreach x (List.mem_cons_of_mem sha h)
                · intro x hx
                  rcases (mem_foldl_topo_push (par sha) rest x).mp hx
                    with h | h
                  · intro hxm
                    rcases List.mem_cons.mp hxm with hxs | hxe
                    · have := hrank sha hsha x h
                      rw [hxs] at this
                      omega
                    · exact hshane (horder_mem x hxe sha hsha h)
                  · intro hxm
                    rcases List.mem_cons.mp hxm with hxs | hxe
                    · exact hsr (hxs ▸ h)
                    · exact htnem x (List.mem_cons_of_mem sha h) hxe
                · intro x hx
                  rcases List.mem_cons.mp hx with h | h
                  · exact h ▸ hsha
                  · exact hereach x h
                · intro i x c hio hcr hpar
                  by_cases hi : i < out.length
                  · rw [List.getElem?_append_left hi] at hio
                    obtain ⟨j, hj, hjo⟩ := hord i x c hio hcr hpar
                    have hjlt : j < out.length :=
                      (List.getElem?_eq_some.mp hjo).1
                    exact ⟨j, hj, by
                      rw [List.getElem?_append_left hjlt]; exact hjo⟩
                  · have hi2 : i < out.length + 1 := by
                      have := (List.getElem?_eq_some.mp hio).1
                      simp only [List.length_append, List.length_cons,
                        List.length_nil] at this
                      omega
                    have hieq : i = out.length := by omega
                    have hx2 : x = sha := by
                      rw [hieq, List.getElem?_concat_length] at hio
                      exact (Option.some.inj hio).symm
                    have hce : c ∈ emitted := hall c hcr (hx2 ▸ hpar)
                    obtain ⟨n, hn, he⟩ :=
                      List.getElem_of_mem ((hmem_out c).mp hce)
                    refine ⟨n, by omega, ?_⟩
                    rw [List.getElem?_append_left hn,
                      List.getElem?_eq_getElem hn, he]
                · intro x hx hxe2
                  have hxs : x ≠ sha :=
                    fun h => hxe2 (h ▸ List.mem_cons_self sha emitted)
                  have hxe : x ∉ emitted :=
                    fun h => hxe2 (List.mem_cons_of_mem sha h)
                  rcases hprog x hx hxe with h | ⟨c, hcr, hpar, hce⟩
                  · rcases List.mem_cons.mp h with h2 | h2
                    · exact absurd h2 hxs
                    · exact Or.inl ((mem_foldl_topo_push (par sha) rest
                        x).mpr (Or.inr h2))
                  · by_cases hcsha : c = sha
                    · exact Or.inl ((mem_foldl_topo_push (par sha) rest
                        x).mpr (Or.inl (hcsha ▸ hpar)))
                    · refine Or.inr ⟨c, hcr, hpar, ?_⟩
                      intro hcm
                      rcases List.mem_cons.mp hcm with h2 | h2
                      · exact hcsha h2
                      · exact hce h2
              have hcnt : (reach.dedup.filter
                  (fun x => !((sha :: emitted).contains x))).length + 1 =
                  (reach.dedup.filter
                    (fun x => !(emitted.contains x))).length := by
                have hpt : reach.dedup.filter
                    (fun x => !((sha :: emitted).contains x)) =
                    reach.dedup.filter
                      (fun x => (!(emitted.contains x)) && !(x == sha)) := by
                  refine List.filter_congr ?_
                  intro x hx
                  show (!((sha :: emitted).contains x)) =
                    ((!(emitted.contains x)) && !(x == sha))
                  rw [List.contains_cons, Bool.not_or, Bool.and_comm]
                rw [hpt]
                exact filter_not_cons_length
                  (fun x => !(emitted.contains x)) sha reach.dedup
                  (List.nodup_dedup reach) (List.mem_dedup.mpr hsha)
                  (by show (!(emitted.contains sha)) = true
                      rw [(contains_eq_false_iff emitted sha).mpr hshane]
                      rfl)
              refine ih _ _ _ hinv2 ?_
              rw [← hcnt] at hfu
              simp only [List.length_cons] at hfu
              exact topo_fuel_emit _ _ _ _ _ _ hfu
                (length_foldl_topo_push (par sha) rest)
                (by
                  have := le_sum_of_mem_nat
                    (reach.map (fun x => (par x).length))
                    ((par sha).length)
                    (List.mem_map_of_mem (fun x => (par x).length) hsha)
                  omega)
          | cons c cs =>
              have hcmem : c ∈ (topo_children par reach sha).filter
                  (fun c => !(emitted.contains c)) := by
                rw [hfe]
                exact List.mem_cons_self c cs
              obtain ⟨hcch, hcne⟩ := List.mem_filter.mp hcmem
              obtain ⟨hcr, hcp⟩ := List.mem_filter.mp hcch
              have hcpar : sha ∈ par c := (contains_eq_true_iff _ _).mp hcp
              have hcnem : c ∉ emitted := by
                intro hm
                rw [(contains_eq_true_iff emitted c).mpr hm] at hcne
                exact Bool.noConfusion hcne
              have hinv2 : topo_inv par reach rest emitted out := by
                refine ⟨hrev, hrnd, hend, ?_, ?_, hereach, hord, ?_⟩
                · intro x hx
                  exact htreach x (List.mem_cons_of_mem sha hx)
                · intro x hx
                  exact htnem x (List.mem_cons_of_mem sha hx)
                · intro x hx hxe
                  rcases hprog x hx hxe with h | h
                  · rcases List.mem_cons.mp h with h2 | h2
                    · exact Or.inr ⟨c, hcr, h2 ▸ hcpar, hcnem⟩
                    · exact Or.inl h2
                  · exact Or.inr h
              refine ih _ _ _ hinv2 ?_
              simp only [List.length_cons] at hfu
              omega

end Reno

namespace Reno

lemma contains_eq_of_perm (l l2 : List String) (h : List.Perm l l2)
    (a : String) : l.contains a = l2.contains a := by
  by_cases hm : a ∈ l
  · rw [(contains_eq_true_iff l a).mpr hm,
      (contains_eq_true_iff l2 a).mpr (h.mem_iff.mp hm)]
  · rw [(contains_eq_false_iff l a).mpr hm,
      (contains_eq_false_iff l2 a).mpr (fun h2 => hm (h.mem_iff.mpr h2))]

lemma isEmpty_eq_of_perm (l l2 : List String) (h : List.Perm l l2) :
    l.isEmpty = l2.isEmpty := by
  have := h.length_eq
  cases l with
  | nil => cases l2 with
    | nil => rfl
    | cons b bs => simp at this
  | cons a as => cases l2 with
    | nil => simp at this
    | cons b bs => rfl

/-- The loop of `_topo_traversal` only consults the reachable set through
membership and child-emptiness tests, so any reordering of the walker's
enumeration leaves every step, and hence the whole run, unchanged. -/
lemma topo_loop_perm (par : String → List String) (reach reach2 : List String)
    (hp : List.Perm reach reach2) :
    ∀ (fuel : Nat) (todo emitted out : List String),
      topo_loop par reach fuel todo emitted out =
        topo_loop par reach2 fuel todo emitted out := by
  intro fuel
  induction fuel with
  | zero => intro todo emitted out; rfl
  | succ fuel ih =>
      intro todo emitted out
      cases todo with
      | nil => rfl
      | cons sha rest =>
          have hc : reach.contains sha = reach2.contains sha :=
            contains_eq_of_perm reach reach2 hp sha
          have hch : List.Perm (topo_children par reach sha)
              (topo_children par reach2 sha) :=
            hp.filter (fun c => (par c).contains sha)
          have hie : ((topo_children par reach sha).filter
                (fun c => !(emitted.contains c))).isEmpty =
              ((topo_children par reach2 sha).filter
                (fun c => !(emitted.contains c))).isEmpty :=
            isEmpty_eq_of_perm _ _
              (hch.filter (fun c => !(emitted.contains c)))
          show (if reach.contains sha then _ else none) =
            (if reach2.contains sha then _ else none)
          rw [hc]
          cases hcv : reach2.contains sha with
          | false => rfl
          | true =>
              show (if ((topo_children par reach sha).filter
                    (fun c => !(emitted.contains c))).isEmpty then _
                  else _) =
                (if ((topo_children par reach2 sha).filter
                    (fun c => !(emitted.contains c))).isEmpty then _
                  else _)
              rw [hie]
              cases hev : ((topo_children par reach2 sha).filter
                  (fun c => !(emitted.contains c))).isEmpty with
              | true => exact ih _ _ _
              | false => exact ih _ _ _

end Reno

namespace Reno

/-- C1, confirmed.  Over any graph presentation that matches a commit DAG
reachable from `head` — `head` is reachable, parents of reachable commits
are reachable, every reachable commit other than `head` is the parent of
some reachable commit, and a rank function orders parents strictly below
their children — `_topo_traversal` terminates and yields a sequence that
contains every reachable commit exactly once and emits a commit only
after all of its reachable children; and the run is deterministic: any
permutation of the walker's enumeration of the reachable set produces the
identical sequence. -/
theorem c1_topo_linearize (par : String → List String)
    (reach : List String) (head : String) (rank : String → Nat)
    (hhead : head ∈ reach)
    (hclosed : ∀ x ∈ reach, ∀ p ∈ par x, p ∈ reach)
    (hchild : ∀ x ∈ reach, x ≠ head → ∃ c ∈ reach, x ∈ par c)
    (hrank : ∀ c ∈ reach, ∀ p ∈ par c, rank p < rank c) :
    (∃ out, topo_traversal par reach head = some out ∧
      out.Nodup ∧ (∀ x, x ∈ out ↔ x ∈ reach) ∧
      (∀ (i : Nat) (x c : String), out[i]? = some x → c ∈ reach →
        x ∈ par c → ∃ j, j < i ∧ out[j]? = some c)) ∧
    (∀ reach2, List.Perm reach reach2 →
      topo_traversal par reach2 head = topo_traversal par reach head) := by
  constructor
  · have hinv : topo_inv par reach [head] [] [] := by
      refine ⟨rfl, List.nodup_singleton head, List.nodup_nil,
        ?_, ?_, ?_, ?_, ?_⟩
      · intro x hx
        exact (List.mem_singleton.mp hx) ▸ hhead
      · intro x _ h
        cases h
      · intro x h
        cases h
      · intro i x c h
        rw [List.getElem?_nil] at h
        cases h
      · intro x hx _
        by_cases hxh : x = head
        · exact Or.inl (hxh ▸ List.mem_singleton_self head)
        · obtain ⟨c, hc, hpar⟩ := hchild x hx hxh
          exact Or.inr ⟨c, hc, hpar, fun h => by cases h⟩
    have hfe : reach.dedup.filter
        (fun x => !(([] : List String).contains x)) = reach.dedup :=
      List.filter_eq_self.mpr (fun a _ => rfl)
    have hfu : (reach.dedup.filter
          (fun x => !(([] : List String).contains x))).length *
          (1 + (reach.map (fun x => (par x).length)).sum) +
          ([head] : List String).length <
        reach.length * (1 + (reach.map (fun x => (par x).length)).sum)
          + 2 := by
      rw [hfe]
      have hlen : reach.dedup.length ≤ reach.length :=
        (List.dedup_sublist reach).length_le
      have hmul := Nat.mul_le_mul_right
        (1 + (reach.map (fun x => (par x).length)).sum) hlen
      simp only [List.length_singleton]
      omega
    exact topo_loop_spec par reach rank hclosed hrank _ [head] [] []
      hinv hfu
  · intro reach2 hp
    show topo_loop par reach2
        (reach2.length * (1 + (reach2.map (fun x => (par x).length)).sum)
          + 2) [head] [] [] =
      topo_loop par reach
        (reach.length * (1 + (reach.map (fun x => (par x).length)).sum)
          + 2) [head] [] []
    have hlen : reach2.length = reach.length := hp.length_eq.symm
    have hsum : (reach2.map (fun x => (par x).length)).sum =
        (reach.map (fun x => (par x).length)).sum :=
      ((hp.map (fun x => (par x).length)).sum_eq).symm
    rw [hlen, hsum]
    exact topo_loop_perm par reach2 reach hp.symm _ _ _ _

/-- The diamond history used to witness C1: head `d` merges two branches
`c` and `b` that both start from the root commit `a`. -/
def c1_par : String → List String := fun s =>
  if s = "d" then ["c", "b"]
  else if s = "c" then ["a"]
  else if s = "b" then ["a"]
  else []

/-- Depth of each commit of the diamond history above its root. -/
def c1_rank : String → Nat := fun s =>
  if s = "d" then 2 else if s = "a" then 0 else 1

/-- Witness for C1 on the diamond history: the traversal from `d`
produces a duplicate-free linearization of all four commits that puts
children before parents, and is stable under re-enumeration of the
reachable set. -/
theorem c1_witness :
    (∃ out, topo_traversal c1_par ["d", "c", "b", "a"] "d" = some out ∧
      out.Nodup ∧ (∀ x, x ∈ out ↔ x ∈ ["d", "c", "b", "a"]) ∧
      (∀ (i : Nat) (x c : String), out[i]? = some x →
        c ∈ ["d", "c", "b", "a"] → x ∈ c1_par c →
        ∃ j, j < i ∧ out[j]? = some c)) ∧
    (∀ reach2, List.Perm ["d", "c", "b", "a"] reach2 →
      topo_traversal c1_par reach2 "d" =
        topo_traversal c1_par ["d", "c", "b", "a"] "d") :=
  c1_topo_linearize c1_par ["d", "c", "b", "a"] "d" c1_rank
    (by decide) (by decide) (by decide) (by decide)

end Reno
